import Mathlib

/-!
Verification of the prompt-planner block-editing engine.

The definitions below are a shallow embedding of the renderer code
(`PromptManager` and `StorageManager` in `src/main.js`): plans and blocks
become Lean structures, the in-place mutations of the JavaScript class
become functions from an explicit application state to a new state, and
JavaScript strings become Lean `String`s manipulated through their
character lists.  Wall-clock instants (`Date.now()`) are modelled as
integers supplied by the caller; the debounced save timer is modelled as
an optional firing deadline, and every invocation of the persistence
gateway (`storage.savePlans`) is recorded in a trace field.
-/

/-- A block of a plan: `{ id, content, done, collapsed }`. -/
structure Block where
  id : String
  content : String
  done : Bool
  collapsed : Bool
deriving DecidableEq

/-- A plan: `{ id, title, createdAt, blocks }`. -/
structure Plan where
  id : String
  title : String
  createdAt : String
  blocks : List Block
deriving DecidableEq

/-- The mutable state of `PromptManager` that the verified operations
touch: the plan collection, the pending-delete reference
(`blockToDelete`), the double-Enter timestamp (`lastEnterPress`), the
debounce deadline (`saveTimeout`, as the absolute instant at which the
scheduled callback fires), and a trace of every plan collection handed
to the persistence gateway. -/
structure AppState where
  plans : List Plan
  blockToDelete : Option String
  lastEnterPress : Int
  pendingSaveAt : Option Int
  saves : List (List Plan)
deriving DecidableEq

/-- Outcome of `initiateBlockDelete`, following the spec's vocabulary:
`blocked` is the last-block refusal (the "Cannot delete the last block"
toast), `pendingConfirmation` sets `blockToDelete`, `deleted` is the
immediate removal of a whitespace-only block, and `noop` is the silent
return when the plan or block cannot be found. -/
inductive DeleteResult where
  | blocked
  | pendingConfirmation
  | deleted
  | noop
deriving DecidableEq

/-! ## JavaScript string primitives -/

/-- Whitespace as recognised by the JavaScript `trim` / `\s` forms the
source uses (space, tab, newline, carriage return). -/
def jsWhitespace (c : Char) : Bool :=
  c == ' ' || c == '\t' || c == '\n' || c == '\r'

/-- Drop leading whitespace from a character list. -/
def trimLeftChars : List Char → List Char
  | [] => []
  | c :: cs => if jsWhitespace c then trimLeftChars cs else c :: cs

/-- Both-ends trim on character lists. -/
def trimChars (cs : List Char) : List Char :=
  trimLeftChars ((trimLeftChars cs.reverse).reverse)

/-- `String.prototype.trim`. -/
def jsTrim (s : String) : String :=
  ⟨trimChars s.data⟩

/-- Does `pre` occur at the head of `cs`? -/
def charsPrefix : List Char → List Char → Bool
  | [], _ => true
  | _ :: _, [] => false
  | p :: ps, c :: cs => p == c && charsPrefix ps cs

/-- `String.prototype.startsWith`. -/
def strStartsWith (s pre : String) : Bool :=
  charsPrefix pre.data s.data

/-- Does `needle` occur anywhere inside the character list? -/
def charsContains (needle : List Char) : List Char → Bool
  | [] => charsPrefix needle []
  | c :: cs => charsPrefix needle (c :: cs) || charsContains needle cs

/-- `String.prototype.includes`. -/
def strContains (s sub : String) : Bool :=
  charsContains sub.data s.data

/-- Split a character list at every newline character; `split('\n')`
never collapses or drops separators, so `n` newlines yield `n + 1`
(possibly empty) fields. -/
def splitNl : List Char → List (List Char)
  | [] => [[]]
  | c :: cs =>
    if c = '\n' then [] :: splitNl cs
    else
      match splitNl cs with
      | [] => [[c]]
      | l :: ls => (c :: l) :: ls

/-- `content.split('\n')` on strings. -/
def splitLines (s : String) : List String :=
  (splitNl s.data).map (fun cs => ⟨cs⟩)

/-! ## Plan lookup and first-match mutation

The source addresses plans and blocks with `Array.prototype.find`, which
returns the first match, and then mutates the found object in place.
`updateFirstPlan`/`updateFirstBlock` reproduce that: only the first
element whose id matches is rewritten. -/

/-- Rewrite the first plan whose id is `pid`. -/
def updateFirstPlan : List Plan → String → (Plan → Plan) → List Plan
  | [], _, _ => []
  | p :: ps, pid, f =>
    if p.id == pid then f p :: ps else p :: updateFirstPlan ps pid f

/-- Rewrite the first block whose id is `bid`. -/
def updateFirstBlock : List Block → String → (Block → Block) → List Block
  | [], _, _ => []
  | b :: bs, bid, f =>
    if b.id == bid then f b :: bs else b :: updateFirstBlock bs bid f

/-- `this.plans.find(p => p.id === planId)`. -/
def findPlan (st : AppState) (planId : String) : Option Plan :=
  st.plans.find? (fun p => p.id == planId)

/-- The block list of the plan a given id resolves to, if any. -/
def planBlocks (st : AppState) (planId : String) : Option (List Block) :=
  (st.plans.find? (fun p => p.id == planId)).map (fun p => p.blocks)

/-! ## Persistence operations -/

/-- `savePlans`: one immediate invocation of the persistence gateway
with the current plan collection (the cosmetic status badge is
rendering-only and not modelled). -/
def savePlansOp (st : AppState) : AppState :=
  { st with saves := st.saves ++ [st.plans] }

/-- `autoSave` at instant `now`: clear any pending timer and schedule a
single debounced gateway save 1000 ms later. -/
def autoSaveOp (st : AppState) (now : Int) : AppState :=
  { st with pendingSaveAt := some (now + 1000) }

/-- `updateBlock(planId, blockId, content)` issued at instant `now`:
assign the first matching block's content and reschedule the debounce
timer; silently do nothing when the plan or the block is absent. -/
def updateBlockOp (st : AppState) (now : Int) (planId blockId content : String) :
    AppState :=
  match st.plans.find? (fun p => p.id == planId) with
  | none => st
  | some plan =>
    match plan.blocks.find? (fun b => b.id == blockId) with
    | none => st
    | some _ =>
      autoSaveOp
        { st with
          plans := updateFirstPlan st.plans planId
            (fun p =>
              { p with
                blocks := updateFirstBlock p.blocks blockId
                  (fun b => { b with content := content }) }) }
        now

/-! ## Block deletion -/

/-- `confirmBlockDelete(planId, blockId)`: when the plan exists, drop
every block whose id is `blockId`, clear `blockToDelete`, and save
immediately; otherwise do nothing at all. -/
def confirmBlockDelete (st : AppState) (planId blockId : String) : AppState :=
  match st.plans.find? (fun p => p.id == planId) with
  | none => st
  | some _ =>
    savePlansOp
      { st with
        plans := updateFirstPlan st.plans planId
          (fun p => { p with blocks := p.blocks.filter (fun b => !(b.id == blockId)) }),
        blockToDelete := none }

/-- `cancelBlockDelete()`: clear the pending-delete reference only. -/
def cancelBlockDelete (st : AppState) : AppState :=
  { st with blockToDelete := none }

/-- `initiateBlockDelete(planId, blockId)`: refuse when at most one
block remains; otherwise delete a whitespace-only block immediately and
put a contentful block into the pending-confirmation state. -/
def initiateBlockDelete (st : AppState) (planId blockId : String) :
    AppState × DeleteResult :=
  match st.plans.find? (fun p => p.id == planId) with
  | none => (st, DeleteResult.noop)
  | some plan =>
    if plan.blocks.length ≤ 1 then (st, DeleteResult.blocked)
    else
      match plan.blocks.find? (fun b => b.id == blockId) with
      | none => (st, DeleteResult.noop)
      | some b =>
        if jsTrim b.content == "" then
          (confirmBlockDelete st planId blockId, DeleteResult.deleted)
        else
          ({ st with blockToDelete := some blockId }, DeleteResult.pendingConfirmation)

/-! ## First-match lemmas -/

theorem find?_updateFirstPlan (ps : List Plan) (pid : String) (f : Plan → Plan)
    (hf : ∀ p, (f p).id = p.id) :
    (updateFirstPlan ps pid f).find? (fun p => p.id == pid) =
      (ps.find? (fun p => p.id == pid)).map f := by
  induction ps with
  | nil => rfl
  | cons p ps ih =>
    by_cases h : p.id == pid
    · simp [updateFirstPlan, List.find?, h, hf]
    · simp [updateFirstPlan, List.find?, h, hf, ih]

theorem planBlocks_update (st : AppState) (pid : String) (plan : Plan)
    (f : Plan → Plan) (hf : ∀ p, (f p).id = p.id)
    (hfind : st.plans.find? (fun p => p.id == pid) = some plan)
    (bd : Option String) (sv : List (List Plan)) (pend : Option Int) (le : Int) :
    planBlocks
      { plans := updateFirstPlan st.plans pid f, blockToDelete := bd,
        lastEnterPress := le, pendingSaveAt := pend, saves := sv } pid =
      some (f plan).blocks := by
  simp [planBlocks, find?_updateFirstPlan _ _ _ hf, hfind]

theorem filter_id_eq_single (bs : List Block) (B : Block)
    (hnd : (bs.map (fun b => b.id)).Nodup) (hmem : B ∈ bs) :
    bs.filter (fun b => b.id == B.id) = [B] := by
  induction bs with
  | nil => cases hmem
  | cons b bs ih =>
    simp only [List.map_cons, List.nodup_cons] at hnd
    rcases List.mem_cons.mp hmem with h | h
    · subst h
      simp only [List.filter_cons, if_pos (by simp : (B.id == B.id) = true)]
      have hnil : ∀ x ∈ bs, ¬ (x.id == B.id) = true := by
        intro x hx hxe
        exact hnd.1 (List.mem_map.mpr ⟨x, hx, eq_of_beq hxe⟩)
      rw [List.filter_eq_nil_iff.mpr hnil]
    · have hne : ¬ (b.id == B.id) = true := by
        intro he
        apply hnd.1
        rw [eq_of_beq he]
        exact List.mem_map.mpr ⟨B, h, rfl⟩
      simp only [List.filter_cons, if_neg hne]
      exact ih hnd.2 h

/-! ## Claim C1: the last block cannot be deleted -/

/-- C1: for every plan that has exactly one block, `initiateBlockDelete`
(the spec's `requestDelete`) returns `Blocked` and leaves the whole
application state — blocks, block fields and the global `blockToDelete`
reference — completely unchanged, whatever block id is passed and
whatever the block contains. -/
theorem requestDelete_last_block_blocked (st : AppState) (pid bid : String)
    (plan : Plan) (hfind : findPlan st pid = some plan)
    (hone : plan.blocks.length = 1) :
    initiateBlockDelete st pid bid = (st, DeleteResult.blocked) := by
  unfold findPlan at hfind
  unfold initiateBlockDelete
  rw [hfind]
  simp [hone]

/-- Witness for C1 at a concrete one-block plan. -/
theorem requestDelete_last_block_blocked_witness :
    initiateBlockDelete
        { plans := [⟨"p1", "T", "d", [⟨"b1", "hello", false, false⟩]⟩],
          blockToDelete := none, lastEnterPress := 0, pendingSaveAt := none,
          saves := [] } "p1" "zzz" =
      ({ plans := [⟨"p1", "T", "d", [⟨"b1", "hello", false, false⟩]⟩],
         blockToDelete := none, lastEnterPress := 0, pendingSaveAt := none,
         saves := [] }, DeleteResult.blocked) :=
  requestDelete_last_block_blocked _ "p1" "zzz"
    ⟨"p1", "T", "d", [⟨"b1", "hello", false, false⟩]⟩ (by decide) (by decide)

/-! ## Claim C10: confirmBlockDelete is unconditional -/

/-- C10: whenever the plan exists, `confirmBlockDelete` removes the
blocks with the given id without consulting `blockToDelete` and without
re-checking the at-least-one-block rule — so confirming the sole
remaining block leaves the plan with zero blocks — and it always resets
`blockToDelete` to `none`. -/
theorem confirmBlockDelete_unconditional (st : AppState) (pid bid : String)
    (plan : Plan) (hfind : findPlan st pid = some plan) :
    planBlocks (confirmBlockDelete st pid bid) pid =
        some (plan.blocks.filter (fun b => !(b.id == bid))) ∧
    (confirmBlockDelete st pid bid).blockToDelete = none ∧
    (∀ b : Block, plan.blocks = [b] → b.id = bid →
      planBlocks (confirmBlockDelete st pid bid) pid = some []) := by
  unfold findPlan at hfind
  unfold confirmBlockDelete
  rw [hfind]
  have hmain :
      planBlocks
        (savePlansOp
          { st with
            plans := updateFirstPlan st.plans pid
              (fun p => { p with blocks := p.blocks.filter (fun b => !(b.id == bid)) }),
            blockToDelete := none }) pid =
        some (plan.blocks.filter (fun b => !(b.id == bid))) := by
    simp only [savePlansOp, planBlocks]
    rw [find?_updateFirstPlan st.plans pid
      (fun p => { p with blocks := p.blocks.filter (fun b => !(b.id == bid)) })
      (fun p => rfl), hfind]
    rfl
  refine ⟨hmain, by simp [savePlansOp], ?_⟩
  intro b hb hbid
  rw [hmain, hb]
  simp [hbid]

/-- Witness for C10: confirming the sole block of a plan empties it. -/
theorem confirmBlockDelete_unconditional_witness :
    planBlocks
        (confirmBlockDelete
          { plans := [⟨"p9", "T", "d", [⟨"b9", "hi", false, false⟩]⟩],
            blockToDelete := none, lastEnterPress := 0, pendingSaveAt := none,
            saves := [] } "p9" "b9") "p9" = some [] := by
  have h := confirmBlockDelete_unconditional
    { plans := [⟨"p9", "T", "d", [⟨"b9", "hi", false, false⟩]⟩],
      blockToDelete := none, lastEnterPress := 0, pendingSaveAt := none,
      saves := [] } "p9" "b9"
    ⟨"p9", "T", "d", [⟨"b9", "hi", false, false⟩]⟩ (by decide)
  exact h.2.2 ⟨"b9", "hi", false, false⟩ rfl rfl

/-! ## Claim C2: pending-delete exclusivity -/

/-- Counterexample to C2: with two blocks `"1"` and `"2"`,
`initiateBlockDelete` puts block `"2"` into the pending-confirmation
state, yet `confirmBlockDelete` called with the *different* id `"1"` is
not a no-op on the plan's blocks — it removes block `"1"`. -/
theorem pendingDelete_confirm_other_id_counterexample :
    initiateBlockDelete
        { plans := [⟨"p", "T", "d",
            [⟨"1", "x", false, false⟩, ⟨"2", "y", false, false⟩]⟩],
          blockToDelete := none, lastEnterPress := 0, pendingSaveAt := none,
          saves := [] } "p" "2" =
      ({ plans := [⟨"p", "T", "d",
            [⟨"1", "x", false, false⟩, ⟨"2", "y", false, false⟩]⟩],
         blockToDelete := some "2", lastEnterPress := 0, pendingSaveAt := none,
         saves := [] }, DeleteResult.pendingConfirmation) ∧
    planBlocks
        (confirmBlockDelete
          { plans := [⟨"p", "T", "d",
              [⟨"1", "x", false, false⟩, ⟨"2", "y", false, false⟩]⟩],
            blockToDelete := some "2", lastEnterPress := 0, pendingSaveAt := none,
            saves := [] } "p" "1") "p" =
      some [⟨"2", "y", false, false⟩] := by
  constructor
  · decide
  · decide

/-- C2 (amended): after `initiateBlockDelete` has returned
`PendingConfirmation` for block `B` of a plan with at least two blocks,
`confirmBlockDelete` with `B`'s id removes exactly `B`; `confirmBlockDelete`
with any id `C` removes every block whose id is `C` — which is a no-op on
the plan's blocks only when no block has id `C` — and in every case it
clears the pending-delete reference. -/
theorem pendingDelete_confirm_behaviour (st : AppState) (pid : String)
    (plan : Plan) (B : Block)
    (hfind : findPlan st pid = some plan)
    (hlen : 2 ≤ plan.blocks.length)
    (hfirst : plan.blocks.find? (fun b => b.id == B.id) = some B)
    (htrim : ¬ (jsTrim B.content == ""))
    (hnd : (plan.blocks.map (fun b => b.id)).Nodup)
    (hmem : B ∈ plan.blocks) :
    initiateBlockDelete st pid B.id =
      ({ st with blockToDelete := some B.id }, DeleteResult.pendingConfirmation) ∧
    (∀ C : String,
      planBlocks
          (confirmBlockDelete { st with blockToDelete := some B.id } pid C) pid =
        some (plan.blocks.filter (fun b => !(b.id == C))) ∧
      (confirmBlockDelete { st with blockToDelete := some B.id } pid C).blockToDelete
        = none) ∧
    plan.blocks.filter (fun b => b.id == B.id) = [B] := by
  unfold findPlan at hfind
  refine ⟨?_, ?_, filter_id_eq_single plan.blocks B hnd hmem⟩
  · unfold initiateBlockDelete
    rw [hfind]
    have hnotone : ¬ plan.blocks.length ≤ 1 := by omega
    simp only [hnotone, hfirst, htrim, if_false, ite_false]
    simp
  · intro C
    unfold confirmBlockDelete
    have hfind' :
        (({ st with blockToDelete := some B.id } : AppState)).plans.find?
          (fun p => p.id == pid) = some plan := hfind
    rw [hfind']
    constructor
    · simp only [savePlansOp, planBlocks]
      rw [find?_updateFirstPlan _ pid
        (fun p => { p with blocks := p.blocks.filter (fun b => !(b.id == C)) })
        (fun p => rfl)]
      rw [show ({ st with blockToDelete := some B.id } : AppState).plans.find?
        (fun p => p.id == pid) = some plan from hfind]
      rfl
    · simp [savePlansOp]

/-- Witness for C2 (amended): pending delete on block `"2"`, then
confirming a nonexistent id `"9"` leaves the blocks alone and confirming
`"2"` removes exactly block `"2"`; both clear `blockToDelete`. -/
theorem pendingDelete_confirm_behaviour_witness :
    initiateBlockDelete
        { plans := [⟨"p", "T", "d",
            [⟨"1", "x", false, false⟩, ⟨"2", "y", false, false⟩]⟩],
          blockToDelete := none, lastEnterPress := 0, pendingSaveAt := none,
          saves := [] } "p" "2" =
      ({ plans := [⟨"p", "T", "d",
            [⟨"1", "x", false, false⟩, ⟨"2", "y", false, false⟩]⟩],
         blockToDelete := some "2", lastEnterPress := 0, pendingSaveAt := none,
         saves := [] }, DeleteResult.pendingConfirmation) ∧
    planBlocks
        (confirmBlockDelete
          { plans := [⟨"p", "T", "d",
              [⟨"1", "x", false, false⟩, ⟨"2", "y", false, false⟩]⟩],
            blockToDelete := some "2", lastEnterPress := 0, pendingSaveAt := none,
            saves := [] } "p" "9") "p" =
      some [⟨"1", "x", false, false⟩, ⟨"2", "y", false, false⟩] ∧
    planBlocks
        (confirmBlockDelete
          { plans := [⟨"p", "T", "d",
              [⟨"1", "x", false, false⟩, ⟨"2", "y", false, false⟩]⟩],
            blockToDelete := some "2", lastEnterPress := 0, pendingSaveAt := none,
            saves := [] } "p" "2") "p" =
      some [⟨"1", "x", false, false⟩] := by
  have h := pendingDelete_confirm_behaviour
    { plans := [⟨"p", "T", "d",
        [⟨"1", "x", false, false⟩, ⟨"2", "y", false, false⟩]⟩],
      blockToDelete := none, lastEnterPress := 0, pendingSaveAt := none,
      saves := [] } "p"
    ⟨"p", "T", "d", [⟨"1", "x", false, false⟩, ⟨"2", "y", false, false⟩]⟩
    ⟨"2", "y", false, false⟩
    (by decide) (by decide) (by decide) (by decide) (by decide) (by decide)
  refine ⟨h.1, ?_, ?_⟩
  · rw [(h.2.1 "9").1]; decide
  · rw [(h.2.1 "2").1]; decide

/-! ## Markdown codec

`generateMarkdownForPlan` and `parseMarkdownToPlan` from
`StorageManager`.  The id of the imported plan, the ids of imported
blocks (`Date.now().toString() + index`), the import timestamp and the
exported `toLocaleDateString()` rendering are environment-supplied
values, so they appear as parameters. -/

/-- `lines[0].replace(/^#\s+/, '')`: drop a leading `#` together with
the whitespace run that follows it, when both are present. -/
def stripTitleHash : List Char → List Char
  | '#' :: c :: rest =>
    if jsWhitespace c then (c :: rest).dropWhile (fun d => jsWhitespace d)
    else '#' :: c :: rest
  | cs => cs

/-- `fileName.replace(/\.(md|txt)$/i, '')`. -/
def stripExtChars (cs : List Char) : List Char :=
  let low := (cs.map Char.toLower).reverse
  if charsPrefix ['d', 'm', '.'] low then cs.take (cs.length - 3)
  else if charsPrefix ['t', 'x', 't', '.'] low then cs.take (cs.length - 4)
  else cs

/-- `line.replace(/^~~|~~$/g, '')`: strip one leading and one trailing
strike marker. -/
def stripTildes (cs : List Char) : List Char :=
  let cs₁ := if charsPrefix ['~', '~'] cs then cs.drop 2 else cs
  if charsPrefix ['~', '~'] cs₁.reverse then cs₁.take (cs₁.length - 2) else cs₁

/-- `currentBlock.content += (currentBlock.content ? '\n' : '') + cleanLine`. -/
def appendLine (content clean : String) : String :=
  if content == "" then clean else content ++ "\n" ++ clean

/-- The parser's loop state: accumulated blocks, the block being
accumulated, and whether a `---` line has closed the accumulation
region. -/
structure ScanState where
  blocks : List Block
  current : Option Block
  region : Bool
deriving DecidableEq

/-- Push the current block onto the result when its trimmed content is
non-empty (the parser's flush step). -/
def flushCurrent (st : ScanState) : List Block :=
  match st.current with
  | some b => if jsTrim b.content == "" then st.blocks else st.blocks ++ [b]
  | none => st.blocks

/-- One iteration of the parsing loop over a single line. -/
def scanLine (idGen : Nat → String) (idx : Nat) (st : ScanState) (line : String) :
    ScanState :=
  if strStartsWith line "## Block" then
    { blocks := flushCurrent st,
      current := some ⟨idGen idx, "", strContains line "(Completed)", false⟩,
      region := true }
  else if line == "---" then
    { st with region := false }
  else if st.region && st.current.isSome && !(jsTrim line == "") then
    { st with
      current := st.current.map (fun b =>
        let clean : String := ⟨trimChars (stripTildes line.data)⟩
        if clean == "*Empty block*" then b
        else { b with content := appendLine b.content clean }) }
  else st

/-- The parsing loop over the remaining lines, threading the `forEach`
index used for id generation. -/
def scanLines (idGen : Nat → String) : Nat → ScanState → List String → ScanState
  | _, st, [] => st
  | idx, st, l :: ls => scanLines idGen (idx + 1) (scanLine idGen idx st l) ls

/-- `parseMarkdownToPlan(content, fileName)`. -/
def parseMarkdownToPlan (idGen : Nat → String)
    (planId fallbackBlockId nowIso : String) (content fileName : String) : Plan :=
  let lines := splitLines content
  let title0 : String := ⟨stripTitleHash (lines.headD "").data⟩
  let title := if title0 == "" then (⟨stripExtChars fileName.data⟩ : String) else title0
  let stF := scanLines idGen 1 ⟨[], none, false⟩ (lines.drop 1)
  let parsed := flushCurrent stF
  let blocks :=
    if parsed.length = 0 then [⟨fallbackBlockId, content, false, false⟩] else parsed
  { id := planId, title := title, createdAt := nowIso, blocks := blocks }

/-- One exported block section:
`## Block {n} {status}\n\n{~~?}{content or placeholder}{~~?}\n\n---\n\n`. -/
def blockSectionMd (idx : Nat) (b : Block) : String :=
  "## Block " ++ toString (idx + 1) ++ " "
    ++ (if b.done then "(Completed)" else "") ++ "\n\n"
    ++ (if b.done then "~~" else "")
    ++ (if b.content == "" then "*Empty block*" else b.content)
    ++ (if b.done then "~~" else "") ++ "\n\n---\n\n"

/-- The exported sections of all blocks, in order. -/
def blocksMd : Nat → List Block → String
  | _, [] => ""
  | idx, b :: bs => blockSectionMd idx b ++ blocksMd (idx + 1) bs

/-- `generateMarkdownForPlan(plan)`; `dateStr` stands for
`new Date(plan.createdAt).toLocaleDateString()`. -/
def generateMarkdownForPlan (dateStr : String) (plan : Plan) : String :=
  "# " ++ plan.title ++ "\n\n"
    ++ "*Created: " ++ dateStr ++ "*\n\n"
    ++ "*Blocks: " ++ toString plan.blocks.length ++ " ("
    ++ toString (plan.blocks.filter (fun b => !b.done)).length ++ " active)*\n\n"
    ++ "---\n\n"
    ++ blocksMd 0 plan.blocks

/-! ## Claim C8: fallback block on empty parse -/

/-- C8: whenever the scanning loop (with the final flush) produces zero
blocks, `parseMarkdownToPlan` returns a plan with exactly one fallback
block whose content is the entire input text, not done and not
collapsed. -/
theorem parse_zero_blocks_fallback (idGen : Nat → String)
    (planId fallbackBlockId nowIso content fileName : String)
    (hempty :
      flushCurrent
        (scanLines idGen 1 ⟨[], none, false⟩ ((splitLines content).drop 1)) = []) :
    (parseMarkdownToPlan idGen planId fallbackBlockId nowIso content fileName).blocks
      = [⟨fallbackBlockId, content, false, false⟩] := by
  simp only [parseMarkdownToPlan]
  rw [hempty]
  rfl

/-- Witness for C8 on a document with no `## Block` heading. -/
theorem parse_zero_blocks_fallback_witness :
    flushCurrent
        (scanLines (fun n => toString n) 1 ⟨[], none, false⟩
          ((splitLines "hello\nworld").drop 1)) = [] ∧
    (parseMarkdownToPlan (fun n => toString n) "P" "F" "now" "hello\nworld"
        "notes.md").blocks = [⟨"F", "hello\nworld", false, false⟩] :=
  ⟨by decide,
    parse_zero_blocks_fallback (fun n => toString n) "P" "F" "now" "hello\nworld"
      "notes.md" (by decide)⟩

/-! ## Keyboard handlers -/

/-- `text.substring(0, n)`. -/
def strTake (s : String) (n : Nat) : String :=
  ⟨s.data.take n⟩

/-- `text.substring(n)`. -/
def strDrop (s : String) (n : Nat) : String :=
  ⟨s.data.drop n⟩

/-- Insertion of the literal newline `execCommand('insertText', '\n')`
performs at the cursor offset. -/
def strInsertNl (s : String) (n : Nat) : String :=
  ⟨s.data.take n ++ '\n' :: s.data.drop n⟩

/-- `Array.prototype.findIndex` (as an option instead of `-1`). -/
def jsFindIndex (p : Block → Bool) : List Block → Option Nat
  | [] => none
  | b :: bs => if p b then some 0 else (jsFindIndex p bs).map (fun i => i + 1)

/-- The `keydown` Enter handler: a second Enter strictly between 0 and
500 ms after the previous one splits the block at the cursor (first part
stays, the rest moves to a fresh block inserted right after, then an
immediate save, then the timer resets to 0); any other Enter inserts a
literal newline at the cursor — which fires the `input` event and hence
`updateBlock` — and stores the current instant in `lastEnterPress`. -/
def enterKeydown (st : AppState) (now : Int) (pid bid : String) (cursorPos : Nat)
    (newId : String) : AppState :=
  match st.plans.find? (fun p => p.id == pid) with
  | none => st
  | some plan =>
    match plan.blocks.find? (fun b => b.id == bid) with
    | none => st
    | some b =>
      let dt : Int := now - st.lastEnterPress
      if 0 < dt ∧ dt < 500 then
        let st₁ := updateBlockOp st now pid bid (strTake b.content cursorPos)
        let insertAt :=
          match jsFindIndex (fun b => b.id == bid) plan.blocks with
          | some i => i + 1
          | none => 0
        let newBlock : Block := ⟨newId, strDrop b.content cursorPos, false, false⟩
        let st₂ := { st₁ with
          plans := updateFirstPlan st₁.plans pid
            (fun p => { p with blocks := p.blocks.insertIdx insertAt newBlock }) }
        { savePlansOp st₂ with lastEnterPress := 0 }
      else
        { updateBlockOp st now pid bid (strInsertNl b.content cursorPos) with
          lastEnterPress := now }

/-- The `keydown` Backspace handler: when the target block's trimmed
text is empty and it is not the first block, remove it (by id) and save
silently; otherwise the event is left to default editing. -/
def backspaceKeydown (st : AppState) (pid bid : String) : AppState :=
  match st.plans.find? (fun p => p.id == pid) with
  | none => st
  | some plan =>
    match jsFindIndex (fun b => b.id == bid) plan.blocks,
        plan.blocks.find? (fun b => b.id == bid) with
    | some i, some b =>
      if jsTrim b.content = "" ∧ 0 < i then
        savePlansOp
          { st with
            plans := updateFirstPlan st.plans pid
              (fun p =>
                { p with blocks := p.blocks.filter (fun bb => !(bb.id == bid)) }) }
      else st
    | _, _ => st

/-! ## Decomposition lemmas for first-match operations -/

theorem find?_block_decomp (pre post : List Block) (B : Block) (bid : String)
    (hpre : ∀ b ∈ pre, (b.id == bid) = false) (hB : B.id = bid) :
    (pre ++ B :: post).find? (fun b => b.id == bid) = some B := by
  induction pre with
  | nil => simp [List.find?, hB]
  | cons b bs ih =>
    have hb := hpre b (by simp)
    simp only [List.cons_append, List.find?, hb]
    exact ih (fun x hx => hpre x (by simp [hx]))

theorem jsFindIndex_decomp (pre post : List Block) (B : Block) (bid : String)
    (hpre : ∀ b ∈ pre, (b.id == bid) = false) (hB : B.id = bid) :
    jsFindIndex (fun b => b.id == bid) (pre ++ B :: post) = some pre.length := by
  induction pre with
  | nil => simp [jsFindIndex, hB]
  | cons b bs ih =>
    have hb := hpre b (by simp)
    have ih' := ih (fun x hx => hpre x (by simp [hx]))
    simp only [List.cons_append, jsFindIndex, hb, if_false, List.append_eq, ih']
    simp

theorem updateFirstBlock_decomp (pre post : List Block) (B : Block) (bid : String)
    (f : Block → Block)
    (hpre : ∀ b ∈ pre, (b.id == bid) = false) (hB : B.id = bid) :
    updateFirstBlock (pre ++ B :: post) bid f = pre ++ f B :: post := by
  induction pre with
  | nil => simp [updateFirstBlock, hB]
  | cons b bs ih =>
    have hb := hpre b (by simp)
    have ih' := ih (fun x hx => hpre x (by simp [hx]))
    simp only [List.cons_append, updateFirstBlock, hb, if_false, List.append_eq, ih']
    simp

theorem insertIdx_after_head (pre post : List Block) (B x : Block) :
    (pre ++ B :: post).insertIdx (pre.length + 1) x = pre ++ B :: x :: post := by
  induction pre with
  | nil => rfl
  | cons b bs ih => simpa [List.insertIdx] using ih

theorem updateFirstPlan_comp (ps : List Plan) (pid : String) (f g : Plan → Plan)
    (hf : ∀ p, (f p).id = p.id) :
    updateFirstPlan (updateFirstPlan ps pid f) pid g =
      updateFirstPlan ps pid (fun p => g (f p)) := by
  induction ps with
  | nil => rfl
  | cons p ps ih =>
    by_cases h : p.id == pid
    · simp [updateFirstPlan, h, hf]
    · simp [updateFirstPlan, h, ih]

theorem enter_double_case (st : AppState) (now : Int) (pid bid : String)
    (k : Nat) (newId : String) (plan : Plan) (pre post : List Block) (B : Block)
    (hfind : findPlan st pid = some plan)
    (hblocks : plan.blocks = pre ++ B :: post)
    (hpre : ∀ b ∈ pre, (b.id == bid) = false)
    (hB : B.id = bid)
    (hdt : 0 < now - st.lastEnterPress ∧ now - st.lastEnterPress < 500) :
    planBlocks (enterKeydown st now pid bid k newId) pid =
      some (pre ++ { B with content := strTake B.content k } ::
        (⟨newId, strDrop B.content k, false, false⟩ : Block) :: post) ∧
    (enterKeydown st now pid bid k newId).lastEnterPress = 0 := by
  have hfind' : st.plans.find? (fun p => p.id == pid) = some plan := hfind
  have hbfind : plan.blocks.find? (fun b => b.id == bid) = some B := by
    rw [hblocks]; exact find?_block_decomp pre post B bid hpre hB
  have hidx : jsFindIndex (fun b => b.id == bid) plan.blocks = some pre.length := by
    rw [hblocks]; exact jsFindIndex_decomp pre post B bid hpre hB
  simp only [enterKeydown, hfind', hbfind, hidx, if_pos hdt, updateBlockOp,
    autoSaveOp, savePlansOp, planBlocks]
  rw [find?_updateFirstPlan
    (updateFirstPlan st.plans pid
      (fun p =>
        { p with
          blocks := updateFirstBlock p.blocks bid
            (fun b => { b with content := strTake B.content k }) }))
    pid
    (fun p =>
      { p with
        blocks := p.blocks.insertIdx (pre.length + 1)
          (⟨newId, strDrop B.content k, false, false⟩ : Block) })
    (fun p => rfl)]
  rw [find?_updateFirstPlan st.plans pid
    (fun p =>
      { p with
        blocks := updateFirstBlock p.blocks bid
          (fun b => { b with content := strTake B.content k }) })
    (fun p => rfl), hfind']
  refine ⟨?_, trivial⟩
  dsimp only [Option.map]
  rw [show updateFirstBlock plan.blocks bid
      (fun b => { b with content := strTake B.content k }) =
      pre ++ { B with content := strTake B.content k } :: post by
    rw [hblocks]
    exact updateFirstBlock_decomp pre post B bid _ hpre hB]
  rw [insertIdx_after_head]

theorem enter_single_case (st : AppState) (now : Int) (pid bid : String)
    (k : Nat) (newId : String) (plan : Plan) (pre post : List Block) (B : Block)
    (hfind : findPlan st pid = some plan)
    (hblocks : plan.blocks = pre ++ B :: post)
    (hpre : ∀ b ∈ pre, (b.id == bid) = false)
    (hB : B.id = bid)
    (hdt : ¬ (0 < now - st.lastEnterPress ∧ now - st.lastEnterPress < 500)) :
    planBlocks (enterKeydown st now pid bid k newId) pid =
      some (pre ++ { B with content := strInsertNl B.content k } :: post) ∧
    (enterKeydown st now pid bid k newId).lastEnterPress = now := by
  have hfind' : st.plans.find? (fun p => p.id == pid) = some plan := hfind
  have hbfind : plan.blocks.find? (fun b => b.id == bid) = some B := by
    rw [hblocks]; exact find?_block_decomp pre post B bid hpre hB
  simp only [enterKeydown, hfind', hbfind, if_neg hdt, updateBlockOp,
    autoSaveOp, planBlocks]
  rw [find?_updateFirstPlan st.plans pid
    (fun p =>
      { p with
        blocks := updateFirstBlock p.blocks bid
          (fun b => { b with content := strInsertNl B.content k }) })
    (fun p => rfl), hfind']
  refine ⟨?_, trivial⟩
  dsimp only [Option.map]
  rw [show updateFirstBlock plan.blocks bid
      (fun b => { b with content := strInsertNl B.content k }) =
      pre ++ { B with content := strInsertNl B.content k } :: post by
    rw [hblocks]
    exact updateFirstBlock_decomp pre post B bid _ hpre hB]

/-! ## Claim C9: double-Enter split policy -/

/-- C9: an Enter keypress in a block splits the block at the cursor if
and only if the time since the previous Enter press is strictly between
0 and 500 ms; every other Enter press inserts a literal newline at the
cursor into the block's content and stores the current instant in the
timer (`lastEnterPress`). -/
theorem enter_split_iff (st : AppState) (now : Int) (pid bid : String)
    (k : Nat) (newId : String) (plan : Plan) (pre post : List Block) (B : Block)
    (hfind : findPlan st pid = some plan)
    (hblocks : plan.blocks = pre ++ B :: post)
    (hpre : ∀ b ∈ pre, (b.id == bid) = false)
    (hB : B.id = bid) :
    ((0 < now - st.lastEnterPress ∧ now - st.lastEnterPress < 500) →
      planBlocks (enterKeydown st now pid bid k newId) pid =
        some (pre ++ { B with content := strTake B.content k } ::
          (⟨newId, strDrop B.content k, false, false⟩ : Block) :: post) ∧
      (enterKeydown st now pid bid k newId).lastEnterPress = 0) ∧
    (¬ (0 < now - st.lastEnterPress ∧ now - st.lastEnterPress < 500) →
      planBlocks (enterKeydown st now pid bid k newId) pid =
        some (pre ++ { B with content := strInsertNl B.content k } :: post) ∧
      (enterKeydown st now pid bid k newId).lastEnterPress = now) ∧
    ((planBlocks (enterKeydown st now pid bid k newId) pid).map List.length
        = some (plan.blocks.length + 1) ↔
      (0 < now - st.lastEnterPress ∧ now - st.lastEnterPress < 500)) := by
  refine ⟨fun h => enter_double_case st now pid bid k newId plan pre post B
    hfind hblocks hpre hB h,
    fun h => enter_single_case st now pid bid k newId plan pre post B
      hfind hblocks hpre hB h, ?_⟩
  by_cases hdt : 0 < now - st.lastEnterPress ∧ now - st.lastEnterPress < 500
  · have h := (enter_double_case st now pid bid k newId plan pre post B
      hfind hblocks hpre hB hdt).1
    rw [h, hblocks]
    simp [hdt]
    omega
  · have h := (enter_single_case st now pid bid k newId plan pre post B
      hfind hblocks hpre hB hdt).1
    rw [h, hblocks]
    simp only [Option.map_some, iff_false, hdt]
    simp

/-- Witness for C9: a second Enter 100 ms after the first splits a
two-character block at cursor offset 1. -/
theorem enter_split_iff_witness :
    planBlocks
        (enterKeydown
          { plans := [⟨"p", "T", "d", [⟨"b1", "xy", false, false⟩]⟩],
            blockToDelete := none, lastEnterPress := 0, pendingSaveAt := none,
            saves := [] } 100 "p" "b1" 1 "n") "p" =
      some [⟨"b1", "x", false, false⟩, ⟨"n", "y", false, false⟩] ∧
    (enterKeydown
        { plans := [⟨"p", "T", "d", [⟨"b1", "xy", false, false⟩]⟩],
          blockToDelete := none, lastEnterPress := 0, pendingSaveAt := none,
          saves := [] } 100 "p" "b1" 1 "n").lastEnterPress = 0 := by
  have h := enter_split_iff
    { plans := [⟨"p", "T", "d", [⟨"b1", "xy", false, false⟩]⟩],
      blockToDelete := none, lastEnterPress := 0, pendingSaveAt := none,
      saves := [] } 100 "p" "b1" 1 "n"
    ⟨"p", "T", "d", [⟨"b1", "xy", false, false⟩]⟩ [] []
    ⟨"b1", "xy", false, false⟩ (by decide) rfl (by simp) rfl
  have h2 := h.1 (by decide)
  refine ⟨?_, h2.2⟩
  rw [h2.1]
  decide

/-! ## Claim C6: split then merge -/

/-- Counterexample to C6: splitting the block `"a "` at position 1
leaves `"a"` and a whitespace-only second block; the backspace merge
applies (its trimmed content is empty) and deletes the second block, but
the surviving single block holds `"a"`, not the original text `"a "` —
the whitespace suffix is lost. -/
theorem split_merge_counterexample :
    planBlocks
        (backspaceKeydown
          (enterKeydown
            { plans := [⟨"p", "T", "d", [⟨"b1", "a ", false, false⟩]⟩],
              blockToDelete := none, lastEnterPress := 0, pendingSaveAt := none,
              saves := [] } 100 "p" "b1" 1 "n") "p" "n") "p" =
      some [⟨"b1", "a", false, false⟩] ∧
    ("a" : String) ≠ "a " := by
  constructor
  · decide
  · decide

/-- C6 (amended): splitting a block at a position `k` at or beyond the
end of its text `t` (so the new second block's content is the empty
string) and then backspace-merging that second block into the first
restores the plan's block sequence exactly: a single block containing
`t`, with order and all sibling blocks unchanged. -/
theorem split_merge_inverse (st : AppState) (now : Int) (pid bid : String)
    (k : Nat) (newId : String) (plan : Plan) (pre post : List Block) (B : Block)
    (hfind : findPlan st pid = some plan)
    (hblocks : plan.blocks = pre ++ B :: post)
    (hpre : ∀ b ∈ pre, (b.id == bid) = false)
    (hB : B.id = bid)
    (hk : B.content.data.length ≤ k)
    (hnew : ∀ b ∈ plan.blocks, (b.id == newId) = false)
    (hdt : 0 < now - st.lastEnterPress ∧ now - st.lastEnterPress < 500) :
    planBlocks (backspaceKeydown (enterKeydown st now pid bid k newId) pid newId)
      pid = some plan.blocks := by
  have hsplit := (enter_double_case st now pid bid k newId plan pre post B
    hfind hblocks hpre hB hdt).1
  have hBeq : ({ B with content := strTake B.content k } : Block) = B := by
    have : strTake B.content k = B.content := by
      unfold strTake
      rw [List.take_of_length_le hk]
    rw [this]
  have hNcontent : strDrop B.content k = "" := by
    unfold strDrop
    rw [List.drop_eq_nil_of_le hk]
  rw [hBeq, hNcontent] at hsplit
  set st₁ := enterKeydown st now pid bid k newId with hst₁
  obtain ⟨p₁, hp₁find, hp₁blocks⟩ :
      ∃ p₁, st₁.plans.find? (fun p => p.id == pid) = some p₁ ∧
        p₁.blocks = pre ++ B :: (⟨newId, "", false, false⟩ : Block) :: post := by
    unfold planBlocks at hsplit
    cases hfp : st₁.plans.find? (fun p => p.id == pid) with
    | none => simp [hfp] at hsplit
    | some q =>
      rw [hfp] at hsplit
      exact ⟨q, rfl, by simpa using hsplit⟩
  have hpref : ∀ b ∈ pre ++ [B], (b.id == newId) = false := by
    intro b hb
    rcases List.mem_append.mp hb with h | h
    · exact hnew b (by rw [hblocks]; exact List.mem_append_left _ h)
    · rcases List.mem_singleton.mp h with rfl
      exact hnew b (by rw [hblocks]; exact List.mem_append_right _ (by simp))
  have hidx : jsFindIndex (fun b => b.id == newId) p₁.blocks =
      some (pre.length + 1) := by
    rw [hp₁blocks]
    have := jsFindIndex_decomp (pre ++ [B]) post
      (⟨newId, "", false, false⟩ : Block) newId hpref rfl
    simpa using this
  have hbfind : p₁.blocks.find? (fun b => b.id == newId) =
      some (⟨newId, "", false, false⟩ : Block) := by
    rw [hp₁blocks]
    have := find?_block_decomp (pre ++ [B]) post
      (⟨newId, "", false, false⟩ : Block) newId hpref rfl
    simpa using this
  simp only [backspaceKeydown, hp₁find, hidx, hbfind]
  rw [if_pos (show jsTrim "" = "" ∧ 0 < pre.length + 1 from ⟨rfl, by omega⟩)]
  simp only [savePlansOp, planBlocks]
  rw [find?_updateFirstPlan st₁.plans pid
    (fun p =>
      { p with blocks := p.blocks.filter (fun bb => !(bb.id == newId)) })
    (fun p => rfl), hp₁find]
  dsimp only [Option.map]
  rw [hp₁blocks, hblocks]
  congr 1
  rw [List.filter_append]
  have h1 : pre.filter (fun bb => !(bb.id == newId)) = pre := by
    rw [List.filter_eq_self]
    intro b hb
    simp [hpref b (List.mem_append_left _ hb)]
  have h2 : (B :: (⟨newId, "", false, false⟩ : Block) :: post).filter
      (fun bb => !(bb.id == newId)) = B :: post := by
    have hBne : (B.id == newId) = false :=
      hpref B (List.mem_append_right _ (by simp))
    simp only [List.filter_cons, hBne]
    have hpost : post.filter (fun bb => !(bb.id == newId)) = post := by
      rw [List.filter_eq_self]
      intro b hb
      simp [hnew b (by rw [hblocks]; exact List.mem_append_right _ (by simp [hb]))]
    simp [hpost]
  rw [h1, h2]

/-- Witness for C6 (amended): splitting `"ab"` at its end and merging
back restores the single original block. -/
theorem split_merge_inverse_witness :
    planBlocks
        (backspaceKeydown
          (enterKeydown
            { plans := [⟨"p", "T", "d", [⟨"b1", "ab", false, false⟩]⟩],
              blockToDelete := none, lastEnterPress := 0, pendingSaveAt := none,
              saves := [] } 100 "p" "b1" 2 "n") "p" "n") "p" =
      some [⟨"b1", "ab", false, false⟩] := by
  have h := split_merge_inverse
    { plans := [⟨"p", "T", "d", [⟨"b1", "ab", false, false⟩]⟩],
      blockToDelete := none, lastEnterPress := 0, pendingSaveAt := none,
      saves := [] } 100 "p" "b1" 2 "n"
    ⟨"p", "T", "d", [⟨"b1", "ab", false, false⟩]⟩ [] []
    ⟨"b1", "ab", false, false⟩ (by decide) rfl (by simp) rfl (by decide)
    (by intro b hb; fin_cases hb; decide) (by decide)
  exact h

/-! ## Paste splitting

The paste handler fires only when the pasted text contains the exact
substring `"\n---\n"` or `"\r\n---\r\n"`; it then splits the text with
the regular expression `/\r?\n---\r?\n/` (leftmost, non-overlapping
matches). -/

/-- One `\r?\n` of the separator pattern (greedy optional `\r`). -/
def matchNlSep : List Char → Option (List Char)
  | '\r' :: '\n' :: rest => some rest
  | '\n' :: rest => some rest
  | _ => none

/-- Match `/\r?\n---\r?\n/` at the head of the list, returning the
remainder after the match. -/
def matchSep (cs : List Char) : Option (List Char) :=
  match matchNlSep cs with
  | none => none
  | some cs₁ =>
    match cs₁ with
    | '-' :: '-' :: '-' :: cs₂ => matchNlSep cs₂
    | _ => none

/-- Left-to-right, non-overlapping regex split, driven by a fuel bound
that the initial call sets to the input length (always sufficient,
because every separator match consumes at least two characters). -/
def splitSepFuel : Nat → List Char → List Char → List (List Char)
  | _, [], acc => [acc.reverse]
  | 0, cs, acc => [acc.reverse ++ cs]
  | fuel + 1, c :: cs', acc =>
    match matchSep (c :: cs') with
    | some rest => acc.reverse :: splitSepFuel fuel rest []
    | none => splitSepFuel fuel cs' (c :: acc)

/-- `pastedText.split(/\r?\n---\r?\n/)`. -/
def splitSections (cs : List Char) : List (List Char) :=
  splitSepFuel cs.length cs []

/-- The handler's trigger test:
`pastedText.includes('\n---\n') || pastedText.includes('\r\n---\r\n')`. -/
def pasteTrigger (s : String) : Bool :=
  strContains s "\n---\n" || strContains s "\r\n---\r\n"

/-- The sequence of `splice(currentBlockIndex + i, 0, newBlock)` calls,
one per remaining section, at increasing indices. -/
def insertLoop : List Block → Nat → List Block → List Block
  | bs, _, [] => bs
  | bs, j, n :: ns => insertLoop (bs.insertIdx j n) (j + 1) ns

/-- The `paste` event handler on a block (split path): when the trigger
substring test passes and the plan and block resolve, the first section
(trimmed) replaces the target block's content (through `updateBlock`,
which also schedules the debounced save) and each further section
(trimmed) becomes a new not-done, not-collapsed block spliced right
after it, followed by an immediate save; otherwise the handler does
nothing and ordinary text insertion proceeds. -/
def pasteHandler (st : AppState) (now : Int) (pid bid : String) (pasted : String)
    (idGen : Nat → String) : AppState :=
  if pasteTrigger pasted then
    match st.plans.find? (fun p => p.id == pid) with
    | none => st
    | some plan =>
      match jsFindIndex (fun b => b.id == bid) plan.blocks with
      | none => st
      | some i =>
        let secs := (splitSections pasted.data).map (fun cs => (⟨cs⟩ : String))
        let newBlocks := (secs.drop 1).mapIdx
          (fun j s => (⟨idGen (j + 1), jsTrim s, false, false⟩ : Block))
        let st₁ := updateBlockOp st now pid bid (jsTrim (secs.headD ""))
        let st₂ := { st₁ with
          plans := updateFirstPlan st₁.plans pid
            (fun p => { p with blocks := insertLoop p.blocks (i + 1) newBlocks }) }
        savePlansOp st₂
  else st

theorem splitSepFuel_ne_nil (fuel : Nat) (cs acc : List Char) :
    splitSepFuel fuel cs acc ≠ [] := by
  induction fuel generalizing cs acc with
  | zero => cases cs <;> simp [splitSepFuel]
  | succ n ih =>
    cases cs with
    | nil => simp [splitSepFuel]
    | cons c cs' =>
      simp only [splitSepFuel]
      cases matchSep (c :: cs') with
      | none => exact ih cs' (c :: acc)
      | some rest => simp

theorem insertIdx_at_front_length (front post : List Block) (n : Block) :
    (front ++ post).insertIdx front.length n = front ++ n :: post := by
  induction front with
  | nil => rfl
  | cons b bs ih => simpa [List.insertIdx] using ih

theorem insertLoop_decomp (ns : List Block) (front post : List Block) :
    insertLoop (front ++ post) front.length ns = front ++ ns ++ post := by
  induction ns generalizing front with
  | nil => simp [insertLoop]
  | cons n ns ih =>
    show insertLoop ((front ++ post).insertIdx front.length n)
      (front.length + 1) ns = _
    rw [insertIdx_at_front_length]
    have h : front ++ n :: post = (front ++ [n]) ++ post := by simp
    rw [h]
    have hlen : front.length + 1 = (front ++ [n]).length := by simp
    rw [hlen, ih (front ++ [n])]
    simp

/-! ## Claim C4: paste splitting -/

/-- Following the claim's wording, not the code: the number of lines of
the text (split at `'\n'`, allowing a trailing `'\r'` for the CRLF
convention) that consist solely of `---`. -/
def separatorLineCountSpec (s : String) : Nat :=
  ((splitNl s.data).filter
    (fun l => l == ['-', '-', '-'] || l == ['-', '-', '-', '\r'])).length

/-- Counterexample to C4: the text `"---\nb"` contains exactly one
separator line, so the claim demands that pasting it into the sole empty
block of a plan yields two blocks; but the handler's trigger test
requires a newline on both sides of `---`, so it does not fire and the
block structure stays at one block. -/
theorem paste_split_counterexample :
    separatorLineCountSpec "---\nb" = 1 ∧
    pasteHandler
        { plans := [⟨"p", "T", "d", [⟨"b1", "", false, false⟩]⟩],
          blockToDelete := none, lastEnterPress := 0, pendingSaveAt := none,
          saves := [] } 0 "p" "b1" "---\nb" (fun n => toString n) =
      { plans := [⟨"p", "T", "d", [⟨"b1", "", false, false⟩]⟩],
        blockToDelete := none, lastEnterPress := 0, pendingSaveAt := none,
        saves := [] } ∧
    planBlocks
        { plans := [⟨"p", "T", "d", [⟨"b1", "", false, false⟩]⟩],
          blockToDelete := none, lastEnterPress := 0, pendingSaveAt := none,
          saves := [] } "p" = some [⟨"b1", "", false, false⟩] := by
  refine ⟨by decide, by decide, by decide⟩

/-- C4 (amended): when the pasted text passes the handler's trigger test
(it contains `"\n---\n"` or `"\r\n---\r\n"` as a substring), the paste
operation partitions the text with `/\r?\n---\r?\n/` into N sections and
replaces the one target block by exactly N blocks: the first section,
trimmed, becomes the target's content, and each later section, trimmed,
becomes a fresh block inserted immediately after it, in left-to-right
order, the other blocks being untouched. -/
theorem paste_split_sections (st : AppState) (now : Int) (pid bid : String)
    (pasted : String) (idGen : Nat → String) (plan : Plan) (pre post : List Block)
    (B : Block)
    (htrig : pasteTrigger pasted = true)
    (hfind : findPlan st pid = some plan)
    (hblocks : plan.blocks = pre ++ B :: post)
    (hpre : ∀ b ∈ pre, (b.id == bid) = false)
    (hB : B.id = bid) :
    planBlocks (pasteHandler st now pid bid pasted idGen) pid =
      some (pre ++
        { B with content :=
            jsTrim (((splitSections pasted.data).map
              (fun cs => (⟨cs⟩ : String))).headD "") } ::
        ((((splitSections pasted.data).map (fun cs => (⟨cs⟩ : String))).drop 1).mapIdx
          (fun j s => (⟨idGen (j + 1), jsTrim s, false, false⟩ : Block)) ++ post)) ∧
    (planBlocks (pasteHandler st now pid bid pasted idGen) pid).map List.length =
      some (plan.blocks.length + (splitSections pasted.data).length - 1) := by
  have hfind' : st.plans.find? (fun p => p.id == pid) = some plan := hfind
  have hbfind : plan.blocks.find? (fun b => b.id == bid) = some B := by
    rw [hblocks]; exact find?_block_decomp pre post B bid hpre hB
  have hidx : jsFindIndex (fun b => b.id == bid) plan.blocks = some pre.length := by
    rw [hblocks]; exact jsFindIndex_decomp pre post B bid hpre hB
  have hmain :
      planBlocks (pasteHandler st now pid bid pasted idGen) pid =
        some (pre ++
          { B with content :=
              jsTrim (((splitSections pasted.data).map
                (fun cs => (⟨cs⟩ : String))).headD "") } ::
          ((((splitSections pasted.data).map
              (fun cs => (⟨cs⟩ : String))).drop 1).mapIdx
            (fun j s => (⟨idGen (j + 1), jsTrim s, false, false⟩ : Block)) ++ post)) := by
    simp only [pasteHandler, htrig, if_true, hfind', hidx, updateBlockOp, hbfind,
      autoSaveOp, savePlansOp, planBlocks]
    rw [find?_updateFirstPlan
      (updateFirstPlan st.plans pid
        (fun p =>
          { p with
            blocks := updateFirstBlock p.blocks bid
              (fun b =>
                { b with
                  content := jsTrim (((splitSections pasted.data).map
                    (fun cs => (⟨cs⟩ : String))).headD "") }) }))
      pid
      (fun p =>
        { p with
          blocks := insertLoop p.blocks (pre.length + 1)
            ((((splitSections pasted.data).map
                (fun cs => (⟨cs⟩ : String))).drop 1).mapIdx
              (fun j s => (⟨idGen (j + 1), jsTrim s, false, false⟩ : Block))) })
      (fun p => rfl)]
    rw [find?_updateFirstPlan st.plans pid
      (fun p =>
        { p with
          blocks := updateFirstBlock p.blocks bid
            (fun b =>
              { b with
                content := jsTrim (((splitSections pasted.data).map
                  (fun cs => (⟨cs⟩ : String))).headD "") }) })
      (fun p => rfl), hfind']
    dsimp only [Option.map]
    rw [show updateFirstBlock plan.blocks bid
        (fun b =>
          { b with
            content := jsTrim (((splitSections pasted.data).map
              (fun cs => (⟨cs⟩ : String))).headD "") }) =
        pre ++ { B with content := jsTrim (((splitSections pasted.data).map
          (fun cs => (⟨cs⟩ : String))).headD "") } :: post by
      rw [hblocks]
      exact updateFirstBlock_decomp pre post B bid _ hpre hB]
    rw [show pre ++ { B with content := jsTrim (((splitSections pasted.data).map
        (fun cs => (⟨cs⟩ : String))).headD "") } :: post =
        (pre ++ [{ B with content := jsTrim (((splitSections pasted.data).map
          (fun cs => (⟨cs⟩ : String))).headD "") }]) ++ post by simp]
    rw [show pre.length + 1 =
        (pre ++ [{ B with content := jsTrim (((splitSections pasted.data).map
          (fun cs => (⟨cs⟩ : String))).headD "") }]).length by simp]
    rw [insertLoop_decomp]
    simp
  refine ⟨hmain, ?_⟩
  rw [hmain, hblocks]
  have hne : splitSections pasted.data ≠ [] := splitSepFuel_ne_nil _ _ _
  cases hs : splitSections pasted.data with
  | nil => exact absurd hs hne
  | cons a as =>
    simp [hs, List.length_mapIdx]
    omega

/-- Witness for C4 (amended): pasting `"a\n---\nb"` into an empty block
yields two blocks with contents `"a"` and `"b"`. -/
theorem paste_split_sections_witness :
    planBlocks
        (pasteHandler
          { plans := [⟨"p", "T", "d", [⟨"b1", "", false, false⟩]⟩],
            blockToDelete := none, lastEnterPress := 0, pendingSaveAt := none,
            saves := [] } 0 "p" "b1" "a\n---\nb" (fun n => toString n)) "p" =
      some [⟨"b1", "a", false, false⟩, ⟨"1", "b", false, false⟩] := by
  have h := paste_split_sections
    { plans := [⟨"p", "T", "d", [⟨"b1", "", false, false⟩]⟩],
      blockToDelete := none, lastEnterPress := 0, pendingSaveAt := none,
      saves := [] } 0 "p" "b1" "a\n---\nb" (fun n => toString n)
    ⟨"p", "T", "d", [⟨"b1", "", false, false⟩]⟩ [] []
    ⟨"b1", "", false, false⟩ (by decide) (by decide) rfl (by simp) rfl
  rw [h.1]
  decide

/-! ## Claim C5: debounce coalescing

The single-threaded event loop is modelled discretely: an update event
carries the instant at which it runs; before it runs, a pending debounce
callback whose deadline has passed fires.  After the last event,
`flushTimer` lets time pass beyond the deadline so the outstanding
callback fires. -/

/-- One `updateContent` call arriving from the UI. -/
structure UpdateEvent where
  time : Int
  planId : String
  blockId : String
  content : String

/-- Run the pending debounce callback if its deadline has been reached
by instant `now` (it invokes `savePlans(false)`, one gateway call). -/
def fireIfDue (st : AppState) (now : Int) : AppState :=
  match st.pendingSaveAt with
  | some d =>
    if d ≤ now then { st with saves := st.saves ++ [st.plans], pendingSaveAt := none }
    else st
  | none => st

/-- Process a sequence of `updateContent` events in event-loop order. -/
def runUpdates (st : AppState) : List UpdateEvent → AppState
  | [] => st
  | e :: es =>
    runUpdates (updateBlockOp (fireIfDue st e.time) e.time e.planId e.blockId e.content) es

/-- Let time pass with no further mutation: the outstanding debounce
callback, if any, fires once. -/
def flushTimer (st : AppState) : AppState :=
  match st.pendingSaveAt with
  | some _ => { st with saves := st.saves ++ [st.plans], pendingSaveAt := none }
  | none => st

/-- Does the given plan id resolve, and inside it the given block id? -/
def targetExistsIn (ps : List Plan) (pid bid : String) : Bool :=
  match ps.find? (fun p => p.id == pid) with
  | none => false
  | some p => (p.blocks.find? (fun b => b.id == bid)).isSome

theorem fireIfDue_plans (st : AppState) (t : Int) : (fireIfDue st t).plans = st.plans := by
  unfold fireIfDue
  cases st.pendingSaveAt with
  | none => rfl
  | some d =>
    by_cases h : d ≤ t
    · simp [h]
    · simp [h]

theorem updateFirstBlock_map_id (bs : List Block) (bid : String) (g : Block → Block)
    (hg : ∀ b, (g b).id = b.id) :
    (updateFirstBlock bs bid g).map (fun b => b.id) = bs.map (fun b => b.id) := by
  induction bs with
  | nil => rfl
  | cons b bs ih =>
    by_cases h : b.id == bid
    · simp [updateFirstBlock, h, hg]
    · simp [updateFirstBlock, h, ih]

theorem isSome_find?_any (p : Block → Bool) (bs : List Block) :
    (bs.find? p).isSome = bs.any p := by
  induction bs with
  | nil => rfl
  | cons b bs ih =>
    cases h : p b with
    | true => simp [List.find?, h]
    | false => simp [List.find?, h, ih]

theorem find?_isSome_of_map_id (bs bs' : List Block) (bid : String)
    (h : bs.map (fun b => b.id) = bs'.map (fun b => b.id)) :
    (bs.find? (fun b => b.id == bid)).isSome =
      (bs'.find? (fun b => b.id == bid)).isSome := by
  rw [isSome_find?_any, isSome_find?_any]
  have h1 : ∀ cs : List Block,
      cs.any (fun b => b.id == bid) = (cs.map (fun b => b.id)).any (fun i => i == bid) := by
    intro cs
    induction cs with
    | nil => rfl
    | cons c cs ih => simp [List.any_cons, ih]
  rw [h1, h1, h]

theorem targetExistsIn_updateFirstPlan (ps : List Plan) (pid' : String)
    (f : Plan → Plan) (hid : ∀ p, (f p).id = p.id)
    (hbl : ∀ p, ((f p).blocks.map (fun b => b.id)) = p.blocks.map (fun b => b.id))
    (pid bid : String) :
    targetExistsIn (updateFirstPlan ps pid' f) pid bid = targetExistsIn ps pid bid := by
  induction ps with
  | nil => rfl
  | cons p ps ih =>
    by_cases h : p.id == pid'
    · simp only [updateFirstPlan, if_pos h, targetExistsIn, List.find?]
      by_cases h2 : p.id == pid
      · rw [show ((f p).id == pid) = true by rw [hid]; exact h2, h2]
        exact find?_isSome_of_map_id _ _ bid (hbl p)
      · rw [show ((f p).id == pid) = false by rw [hid]; simpa using h2,
          show (p.id == pid) = false by simpa using h2]
    · simp only [updateFirstPlan, if_neg h, targetExistsIn, List.find?]
      by_cases h2 : p.id == pid
      · rw [h2]
      · rw [show (p.id == pid) = false by simpa using h2]
        exact ih

theorem targetExistsIn_updateBlockOp (st : AppState) (now : Int)
    (pid' bid' c pid bid : String) :
    targetExistsIn (updateBlockOp st now pid' bid' c).plans pid bid =
      targetExistsIn st.plans pid bid := by
  unfold updateBlockOp
  split
  · rfl
  · split
    · rfl
    · simp only [autoSaveOp]
      exact targetExistsIn_updateFirstPlan st.plans pid'
        (fun p =>
          { p with
            blocks := updateFirstBlock p.blocks bid'
              (fun b => { b with content := c }) })
        (fun p => rfl)
        (fun p => updateFirstBlock_map_id p.blocks bid'
          (fun b => { b with content := c }) (fun b => rfl))
        pid bid

theorem updateBlockOp_scheduled (st : AppState) (now : Int) (pid bid c : String)
    (h : targetExistsIn st.plans pid bid = true) :
    (updateBlockOp st now pid bid c).saves = st.saves ∧
    (updateBlockOp st now pid bid c).pendingSaveAt = some (now + 1000) ∧
    (updateBlockOp st now pid bid c).blockToDelete = st.blockToDelete := by
  unfold targetExistsIn at h
  unfold updateBlockOp
  split
  · rename_i heq
    rw [heq] at h
    cases h
  · rename_i plan heq
    rw [heq] at h
    dsimp only at h
    split
    · rename_i heq2
      rw [heq2] at h
      simp at h
    · simp [autoSaveOp]

theorem runUpdates_quiet (es : List UpdateEvent) : ∀ (st : AppState) (d : Int),
    st.pendingSaveAt = some d →
    (∀ e, es.head? = some e → e.time < d) →
    es.Chain' (fun a b => b.time - a.time < 1000) →
    (∀ e ∈ es, targetExistsIn st.plans e.planId e.blockId = true) →
    (runUpdates st es).saves = st.saves ∧
    (runUpdates st es).pendingSaveAt =
      some (es.foldl (fun _ ev => ev.time + 1000) d) := by
  induction es with
  | nil => intro st d hpend _ _ _; exact ⟨rfl, by simpa [runUpdates] using hpend⟩
  | cons e es ih =>
    intro st d hpend hfirst hchain htargets
    have hlt : e.time < d := hfirst e rfl
    have hfire : fireIfDue st e.time = st := by
      unfold fireIfDue
      rw [hpend]
      simp [show ¬ d ≤ e.time by omega]
    have hsched := updateBlockOp_scheduled st e.time e.planId e.blockId e.content
      (htargets e (by simp))
    have htargets' : ∀ ev ∈ es,
        targetExistsIn (updateBlockOp st e.time e.planId e.blockId e.content).plans
          ev.planId ev.blockId = true := by
      intro ev hev
      rw [targetExistsIn_updateBlockOp]
      exact htargets ev (by simp [hev])
    have hchain' : es.Chain' (fun a b => b.time - a.time < 1000) := hchain.tail
    have hfirst' : ∀ ev, es.head? = some ev → ev.time < e.time + 1000 := by
      intro ev hev
      have := List.chain'_cons'.mp hchain
      have h2 := this.1 ev hev
      omega
    have hind := ih (updateBlockOp st e.time e.planId e.blockId e.content)
      (e.time + 1000) hsched.2.1 hfirst' hchain' htargets'
    have hrw : runUpdates st (e :: es) =
        runUpdates (updateBlockOp st e.time e.planId e.blockId e.content) es := by
      show runUpdates (updateBlockOp (fireIfDue st e.time) e.time e.planId
        e.blockId e.content) es = _
      rw [hfire]
    rw [List.foldl_cons]
    exact ⟨by rw [hrw, hind.1, hsched.1], by rw [hrw, hind.2]⟩

theorem foldl_deadline (es : List UpdateEvent) : ∀ e : UpdateEvent,
    es.foldl (fun _ ev => ev.time + 1000) (e.time + 1000) =
      (es.getLastD e).time + 1000 := by
  induction es with
  | nil => intro e; rfl
  | cons f fs ih =>
    intro e
    rw [List.foldl_cons, List.getLastD_cons]
    exact ih f

/-- C5: starting from a state with no pending timer and an empty save
trace, a nonempty burst of `updateContent` calls on existing blocks,
each arriving less than 1000 ms after the previous one and with no other
save-triggering operation interleaved, produces no gateway call while
the burst lasts; afterwards exactly one debounced gateway call is
outstanding, scheduled 1000 ms after the last call, and letting it fire
transmits exactly the full plan collection in the state left by the last
call. -/
theorem debounce_coalescing (st₀ : AppState) (e : UpdateEvent)
    (es : List UpdateEvent)
    (hsaves : st₀.saves = []) (hpend : st₀.pendingSaveAt = none)
    (hchain : (e :: es).Chain' (fun a b => b.time - a.time < 1000))
    (htargets : ∀ ev ∈ e :: es,
      targetExistsIn st₀.plans ev.planId ev.blockId = true) :
    (runUpdates st₀ (e :: es)).saves = [] ∧
    (runUpdates st₀ (e :: es)).pendingSaveAt =
      some ((((e :: es).getLastD e).time) + 1000) ∧
    flushTimer (runUpdates st₀ (e :: es)) =
      { runUpdates st₀ (e :: es) with
        saves := [(runUpdates st₀ (e :: es)).plans], pendingSaveAt := none } := by
  have hfire : fireIfDue st₀ e.time = st₀ := by
    unfold fireIfDue
    rw [hpend]
  have hsched := updateBlockOp_scheduled st₀ e.time e.planId e.blockId e.content
    (htargets e (by simp))
  have htargets' : ∀ ev ∈ es,
      targetExistsIn (updateBlockOp st₀ e.time e.planId e.blockId e.content).plans
        ev.planId ev.blockId = true := by
    intro ev hev
    rw [targetExistsIn_updateBlockOp]
    exact htargets ev (by simp [hev])
  have hfirst' : ∀ ev, es.head? = some ev → ev.time < e.time + 1000 := by
    intro ev hev
    have := List.chain'_cons'.mp hchain
    have h2 := this.1 ev hev
    omega
  have hq := runUpdates_quiet es
    (updateBlockOp st₀ e.time e.planId e.blockId e.content) (e.time + 1000)
    hsched.2.1 hfirst' hchain.tail htargets'
  have hrun : runUpdates st₀ (e :: es) =
      runUpdates (updateBlockOp st₀ e.time e.planId e.blockId e.content) es := by
    show runUpdates (updateBlockOp (fireIfDue st₀ e.time) e.time e.planId e.blockId
      e.content) es = _
    rw [hfire]
  have hs : (runUpdates st₀ (e :: es)).saves = [] := by
    rw [hrun, hq.1, hsched.1, hsaves]
  have hp : (runUpdates st₀ (e :: es)).pendingSaveAt =
      some ((((e :: es).getLastD e).time) + 1000) := by
    rw [hrun, hq.2, foldl_deadline, List.getLastD_cons]
  refine ⟨hs, hp, ?_⟩
  unfold flushTimer
  rw [hp, hs]
  simp

/-- Witness for C5: two updates 400 ms apart coalesce into a single
pending save that fires 1000 ms after the second one. -/
theorem debounce_coalescing_witness :
    (runUpdates
        { plans := [⟨"p", "T", "d", [⟨"b1", "", false, false⟩]⟩],
          blockToDelete := none, lastEnterPress := 0, pendingSaveAt := none,
          saves := [] }
        [⟨100, "p", "b1", "x"⟩, ⟨500, "p", "b1", "xy"⟩]).saves = [] ∧
    (runUpdates
        { plans := [⟨"p", "T", "d", [⟨"b1", "", false, false⟩]⟩],
          blockToDelete := none, lastEnterPress := 0, pendingSaveAt := none,
          saves := [] }
        [⟨100, "p", "b1", "x"⟩, ⟨500, "p", "b1", "xy"⟩]).pendingSaveAt =
      some 1500 := by
  have h := debounce_coalescing
    { plans := [⟨"p", "T", "d", [⟨"b1", "", false, false⟩]⟩],
      blockToDelete := none, lastEnterPress := 0, pendingSaveAt := none,
      saves := [] }
    ⟨100, "p", "b1", "x"⟩ [⟨500, "p", "b1", "xy"⟩]
    rfl rfl
    (by
      rw [List.chain'_cons]
      exact ⟨by show ((500 : Int) - 100 < 1000); omega, List.chain'_singleton _⟩)
    (by intro ev hev; fin_cases hev <;> decide)
  refine ⟨h.1, ?_⟩
  rw [h.2.1]
  decide

/-! ## Claim C7: drag-reorder -/

/-- First index of a matching element (the `Option` form of
`Array.prototype.findIndex` over strings). -/
def strFindIndex (p : String → Bool) : List String → Option Nat
  | [] => none
  | y :: ys => if p y then some 0 else (strFindIndex p ys).map (fun i => i + 1)

/-- `newOrder.indexOf(x)`: the first index of `x`, or `-1`. -/
def jsIndexOf (l : List String) (x : String) : Int :=
  match strFindIndex (fun y => y == x) l with
  | some i => (i : Int)
  | none => -1

/-- The comparator `newOrder.indexOf(a.id) - newOrder.indexOf(b.id)`
keeps `a` before `b` exactly when this key order holds. -/
def dropLe (newOrder : List String) (a b : Block) : Bool :=
  decide (jsIndexOf newOrder a.id ≤ jsIndexOf newOrder b.id)

/-- The `drop` handler: re-sort the current plan's blocks by the index
of their ids in the DOM-derived id order, then save silently. -/
def dropReorder (st : AppState) (pid : String) (newOrder : List String) : AppState :=
  match st.plans.find? (fun p => p.id == pid) with
  | none => st
  | some _ =>
    savePlansOp
      { st with
        plans := updateFirstPlan st.plans pid
          (fun p => { p with blocks := p.blocks.mergeSort (dropLe newOrder) }) }

theorem strFindIndex_none (x : String) (l : List String) (h : x ∉ l) :
    strFindIndex (fun y => y == x) l = none := by
  induction l with
  | nil => rfl
  | cons y ys ih =>
    have hy : (y == x) = false := by
      simp only [beq_eq_false_iff_ne]
      intro he
      exact h (by simp [he])
    simp only [strFindIndex, hy, if_false]
    rw [ih (fun hm => h (by simp [hm]))]
    rfl

theorem strFindIndex_self (l : List String) (hnd : l.Nodup) (j : Nat)
    (hj : j < l.length) :
    strFindIndex (fun y => y == l[j]) l = some j := by
  induction l generalizing j with
  | nil => cases hj
  | cons y ys ih =>
    rw [List.nodup_cons] at hnd
    cases j with
    | zero => simp [strFindIndex]
    | succ j =>
      have hj' : j < ys.length := by simpa using hj
      have hjy : (y == ys[j]) = false := by
        simp only [beq_eq_false_iff_ne]
        intro he
        exact hnd.1 (by rw [he]; exact List.getElem_mem _)
      simp only [List.getElem_cons_succ, strFindIndex, hjy, if_false]
      rw [ih hnd.2 j (by simpa using hj)]
      rfl

theorem strFindIndex_some_getElem (x : String) (l : List String) (j : Nat)
    (h : strFindIndex (fun y => y == x) l = some j) :
    ∃ hj : j < l.length, l[j] = x := by
  induction l generalizing j with
  | nil => cases h
  | cons y ys ih =>
    by_cases hy : (y == x) = true
    · simp only [strFindIndex, hy, if_true] at h
      cases h
      exact ⟨by simp, eq_of_beq hy⟩
    · simp only [strFindIndex, hy, if_false] at h
      cases hfi : strFindIndex (fun y => y == x) ys with
      | none => rw [hfi] at h; cases h
      | some i =>
        rw [hfi] at h
        have h2 : i + 1 = j := by
          have h3 : some (i + 1) = some j := h
          injection h3
        obtain ⟨hi, hx⟩ := ih i hfi
        subst h2
        exact ⟨by simpa using hi, by simpa using hx⟩

theorem jsIndexOf_getElem (l : List String) (hnd : l.Nodup) (j : Nat)
    (hj : j < l.length) : jsIndexOf l l[j] = (j : Int) := by
  unfold jsIndexOf
  rw [strFindIndex_self l hnd j hj]

theorem jsIndexOf_notmem (l : List String) (x : String) (h : x ∉ l) :
    jsIndexOf l x = -1 := by
  unfold jsIndexOf
  rw [strFindIndex_none x l h]

theorem jsIndexOf_eq_nat (l : List String) (x : String) (j : Nat)
    (h : jsIndexOf l x = (j : Int)) : ∃ hj : j < l.length, l[j] = x := by
  unfold jsIndexOf at h
  split at h
  · rename_i i hfi
    have hij : i = j := by omega
    subst hij
    exact strFindIndex_some_getElem x l i hfi
  · exfalso
    omega

theorem dropLe_trans (no : List String) (a b c : Block)
    (h1 : dropLe no a b = true) (h2 : dropLe no b c = true) :
    dropLe no a c = true := by
  unfold dropLe at h1 h2 ⊢
  exact decide_eq_true (le_trans (of_decide_eq_true h1) (of_decide_eq_true h2))

theorem dropLe_total (no : List String) (a b : Block) :
    (dropLe no a b || dropLe no b a) = true := by
  unfold dropLe
  rcases le_total (jsIndexOf no a.id) (jsIndexOf no b.id) with h | h
  · simp [h]
  · simp [h]

theorem mergeSort_ids (bs : List Block) (no : List String)
    (hnd : (bs.map (fun b => b.id)).Nodup)
    (hperm : no.Perm (bs.map (fun b => b.id))) :
    (bs.mergeSort (dropLe no)).map (fun b => b.id) = no := by
  have hndno : no.Nodup := hperm.symm.nodup hnd
  have hpermres := List.mergeSort_perm bs (dropLe no)
  have hsorted := List.sorted_mergeSort
    (fun a b c h1 h2 => dropLe_trans no a b c h1 h2)
    (fun a b => dropLe_total no a b) bs
  have hkeysorted : List.Pairwise (fun x y : Int => x ≤ y)
      ((bs.mergeSort (dropLe no)).map (fun b => jsIndexOf no b.id)) :=
    hsorted.map (fun b : Block => jsIndexOf no b.id)
      (fun a b h => of_decide_eq_true h)
  have hmapself : no.map (fun x => jsIndexOf no x) =
      (List.range no.length).map (fun i : Nat => (i : Int)) := by
    apply List.ext_getElem (by simp)
    intro n h1 h2
    simp only [List.getElem_map, List.getElem_range]
    exact jsIndexOf_getElem no hndno n (by simpa using h1)
  have hpermkeys :
      ((bs.mergeSort (dropLe no)).map (fun b => jsIndexOf no b.id)).Perm
        ((List.range no.length).map (fun i : Nat => (i : Int))) := by
    have p1 := hpermres.map (fun b => jsIndexOf no b.id)
    have e1 : bs.map (fun b => jsIndexOf no b.id) =
        (bs.map (fun b => b.id)).map (fun x => jsIndexOf no x) := by
      rw [List.map_map]
      rfl
    rw [e1] at p1
    exact (p1.trans (hperm.map (fun x => jsIndexOf no x)).symm).trans
      (hmapself ▸ List.Perm.refl _)
  have hsortedrange : List.Pairwise (fun x y : Int => x ≤ y)
      ((List.range no.length).map (fun i : Nat => (i : Int))) :=
    ((List.pairwise_lt_range no.length).map (fun i : Nat => (i : Int))
      (fun a b h => Int.ofNat_lt.mpr h)).imp (fun h => le_of_lt h)
  have hkeys_eq : (bs.mergeSort (dropLe no)).map (fun b => jsIndexOf no b.id) =
      (List.range no.length).map (fun i : Nat => (i : Int)) :=
    List.eq_of_perm_of_sorted hpermkeys hkeysorted hsortedrange
  have hlenperm := hperm.length_eq
  have hlen : (bs.mergeSort (dropLe no)).length = no.length := by
    rw [List.length_mergeSort]
    simp only [List.length_map] at hlenperm
    omega
  apply List.ext_getElem (by simp [hlen])
  intro n h1 h2
  have hn : n < (bs.mergeSort (dropLe no)).length := by simpa using h1
  have hb1 : n <
      ((bs.mergeSort (dropLe no)).map (fun b => jsIndexOf no b.id)).length := by
    simpa using hn
  have hkn := List.getElem_of_eq hkeys_eq hb1
  simp only [List.getElem_map, List.getElem_range] at hkn
  obtain ⟨hjn, hje⟩ := jsIndexOf_eq_nat no ((bs.mergeSort (dropLe no))[n]).id n hkn
  simp only [List.getElem_map]
  exact hje.symm

/-- C7: on a complete permutation `newOrder` of a plan's block ids (the
ids being distinct), the drop handler re-sorts the blocks so that their
ids appear exactly in the order of `newOrder`; the result is a
permutation of the original blocks — every block kept with all its
fields, none added or removed.  An id absent from `newOrder` gets sort
key `-1` (sorting it first), which the last conjunct records. -/
theorem reorder_complete_permutation (st : AppState) (pid : String)
    (newOrder : List String) (plan : Plan)
    (hfind : findPlan st pid = some plan)
    (hnd : (plan.blocks.map (fun b => b.id)).Nodup)
    (hperm : newOrder.Perm (plan.blocks.map (fun b => b.id))) :
    planBlocks (dropReorder st pid newOrder) pid =
      some (plan.blocks.mergeSort (dropLe newOrder)) ∧
    (plan.blocks.mergeSort (dropLe newOrder)).map (fun b => b.id) = newOrder ∧
    (plan.blocks.mergeSort (dropLe newOrder)).Perm plan.blocks ∧
    (∀ x : String, x ∉ newOrder → jsIndexOf newOrder x = -1) := by
  have hfind' : st.plans.find? (fun p => p.id == pid) = some plan := hfind
  refine ⟨?_, mergeSort_ids plan.blocks newOrder hnd hperm,
    List.mergeSort_perm plan.blocks (dropLe newOrder),
    fun x hx => jsIndexOf_notmem newOrder x hx⟩
  simp only [dropReorder, hfind', savePlansOp, planBlocks]
  rw [find?_updateFirstPlan st.plans pid
    (fun p => { p with blocks := p.blocks.mergeSort (dropLe newOrder) })
    (fun p => rfl), hfind']
  rfl

/-- Witness for C7: reordering a two-block plan with the reversed id
list swaps the two blocks. -/
theorem reorder_complete_permutation_witness :
    planBlocks
        (dropReorder
          { plans := [⟨"p", "T", "d",
              [⟨"1", "x", false, false⟩, ⟨"2", "y", false, false⟩]⟩],
            blockToDelete := none, lastEnterPress := 0, pendingSaveAt := none,
            saves := [] } "p" ["2", "1"]) "p" =
      some [⟨"2", "y", false, false⟩, ⟨"1", "x", false, false⟩] := by
  have h := reorder_complete_permutation
    { plans := [⟨"p", "T", "d",
        [⟨"1", "x", false, false⟩, ⟨"2", "y", false, false⟩]⟩],
      blockToDelete := none, lastEnterPress := 0, pendingSaveAt := none,
      saves := [] } "p" ["2", "1"]
    ⟨"p", "T", "d", [⟨"1", "x", false, false⟩, ⟨"2", "y", false, false⟩]⟩
    (by decide) (by decide)
    (by
      have : (["2", "1"] : List String).Perm ["1", "2"] :=
        List.Perm.swap "1" "2" []
      simpa using this)
  obtain ⟨hpb, hmap, hperm2, _⟩ := h
  obtain ⟨x, y, hxy⟩ : ∃ x y,
      ([⟨"1", "x", false, false⟩, ⟨"2", "y", false, false⟩] : List Block).mergeSort
        (dropLe ["2", "1"]) = [x, y] := by
    have hlen := hperm2.length_eq
    match hms : ([⟨"1", "x", false, false⟩, ⟨"2", "y", false, false⟩] :
        List Block).mergeSort (dropLe ["2", "1"]) with
    | [] => rw [hms] at hlen; cases hlen
    | [a] => rw [hms] at hlen; cases hlen
    | [a, b] => exact ⟨a, b, rfl⟩
    | a :: b :: c :: t => rw [hms] at hlen; simp at hlen
  rw [hxy] at hpb hmap hperm2
  have hxid : x.id = "2" := by
    have := congrArg (fun l => l.headD "") hmap
    simpa using this
  have hyid : y.id = "1" := by
    have := congrArg (fun l => (l.drop 1).headD "") hmap
    simpa using this
  have hxmem : x ∈ ([⟨"1", "x", false, false⟩, ⟨"2", "y", false, false⟩] :
      List Block) := hperm2.mem_iff.mp (by simp)
  have hymem : y ∈ ([⟨"1", "x", false, false⟩, ⟨"2", "y", false, false⟩] :
      List Block) := hperm2.mem_iff.mp (by simp)
  have hx2 : x = ⟨"2", "y", false, false⟩ := by
    rcases List.mem_cons.mp hxmem with h1 | h1
    · rw [h1] at hxid
      exact absurd hxid (by decide)
    · rcases List.mem_singleton.mp h1 with rfl
      rfl
  have hy1 : y = ⟨"1", "x", false, false⟩ := by
    rcases List.mem_cons.mp hymem with h1 | h1
    · exact h1
    · rcases List.mem_singleton.mp h1 with rfl
      exact absurd hyid (by decide)
  rw [hpb, hx2, hy1]

/-! ## Claim C3: export/import round trip -/

/-- Counterexample to C3: a block whose content holds a line consisting
of `---` (content `"a\n---\nb"`, non-empty after trimming) does not
survive the round trip: the importer treats the embedded `---` line as
an end-of-block marker, so the re-imported block's content is `"a"`,
which differs from the original even after whitespace trimming. -/
theorem roundtrip_content_counterexample :
    (parseMarkdownToPlan (fun n => toString n) "P2" "F" "now"
        (generateMarkdownForPlan "1/1/2024"
          ⟨"p1", "T", "d", [⟨"b1", "a\n---\nb", false, false⟩]⟩)
        "f.md").blocks.map (fun b => b.content) = ["a"] ∧
    jsTrim "a\n---\nb" = "a\n---\nb" ∧
    ("a" : String) ≠ "a\n---\nb" := by
  refine ⟨by decide, by decide, by decide⟩

/-! Line-splitting lemmas used by the round-trip proof. -/

theorem splitNl_ne_nil (cs : List Char) : splitNl cs ≠ [] := by
  cases cs with
  | nil => simp [splitNl]
  | cons c cs =>
    simp only [splitNl]
    by_cases h : c = '\n'
    · simp [h]
    · simp only [h, if_false]
      cases hs : splitNl cs with
      | nil => simp
      | cons l ls => simp

theorem splitNl_append_nl (cs ds : List Char) :
    splitNl (cs ++ '\n' :: ds) = splitNl cs ++ splitNl ds := by
  induction cs with
  | nil => simp [splitNl]
  | cons c cs ih =>
    by_cases h : c = '\n'
    · subst h
      simp [splitNl, ih]
    · simp only [List.cons_append, splitNl, h, if_false, List.append_eq, ih]
      cases hs : splitNl cs with
      | nil => exact absurd hs (splitNl_ne_nil cs)
      | cons l ls => simp [hs]

theorem splitNl_no_nl (cs : List Char) (h : ∀ c ∈ cs, ¬ c = '\n') :
    splitNl cs = [cs] := by
  induction cs with
  | nil => rfl
  | cons c cs ih =>
    simp only [splitNl, h c (by simp), if_false]
    rw [ih (fun x hx => h x (by simp [hx]))]

theorem mem_splitNl_no_nl (cs : List Char) :
    ∀ l ∈ splitNl cs, ∀ c ∈ l, ¬ c = '\n' := by
  induction cs with
  | nil =>
    intro l hl
    simp only [splitNl, List.mem_singleton] at hl
    subst hl
    simp
  | cons c cs ih =>
    intro l hl
    by_cases h : c = '\n'
    · subst h
      simp only [splitNl, eq_self_iff_true, if_true, List.mem_cons] at hl
      rcases hl with hleq | hl
      · subst hleq
        simp
      · exact ih l hl
    · simp only [splitNl, h, if_false] at hl
      obtain ⟨l₀, ls, hs⟩ : ∃ l₀ ls, splitNl cs = l₀ :: ls := by
        cases hx : splitNl cs with
        | nil => exact absurd hx (splitNl_ne_nil cs)
        | cons a b => exact ⟨a, b, rfl⟩
      rw [hs] at hl
      simp only [List.mem_cons] at hl
      rcases hl with rfl | hl
      · intro x hx
        rcases List.mem_cons.mp hx with rfl | hx
        · exact h
        · exact ih l₀ (by simp [hs]) x hx
      · exact ih l (by simp [hs, hl])

theorem splitLines_append_gen (s t : String) :
    splitLines (s ++ "\n" ++ t) = splitLines s ++ splitLines t := by
  unfold splitLines
  rw [String.data_append, String.data_append, List.append_assoc]
  rw [show ("\n" : String).data ++ t.data = '\n' :: t.data from rfl]
  rw [splitNl_append_nl, List.map_append]

theorem splitLines_single (s : String) (h : ∀ c ∈ s.data, ¬ c = '\n') :
    splitLines s = [s] := by
  unfold splitLines
  rw [splitNl_no_nl s.data h]
  rfl

theorem splitLines_append_mid (s t : String) (h : ∀ c ∈ s.data, ¬ c = '\n') :
    splitLines (s ++ "\n" ++ t) = s :: splitLines t := by
  rw [splitLines_append_gen, splitLines_single s h]
  rfl

theorem splitLines_cons_nl (t : String) :
    splitLines ("\n" ++ t) = "" :: splitLines t := by
  unfold splitLines
  rw [String.data_append]
  rw [show ("\n" : String).data ++ t.data = '\n' :: t.data from rfl]
  rw [show splitNl ('\n' :: t.data) = [] :: splitNl t.data from rfl]
  rfl

/-! Trimming lemmas. -/

theorem trimLeftChars_all_ws (cs : List Char) (h : trimLeftChars cs = []) :
    ∀ c ∈ cs, jsWhitespace c = true := by
  induction cs with
  | nil => simp
  | cons c cs ih =>
    simp only [trimLeftChars] at h
    by_cases hw : jsWhitespace c
    · rw [if_pos hw] at h
      intro x hx
      rcases List.mem_cons.mp hx with rfl | hx
      · exact hw
      · exact ih h x hx
    · rw [if_neg hw] at h
      cases h

theorem trimLeftChars_of_all_ws (cs : List Char)
    (h : ∀ c ∈ cs, jsWhitespace c = true) : trimLeftChars cs = [] := by
  induction cs with
  | nil => rfl
  | cons c cs ih =>
    simp only [trimLeftChars, if_pos (h c (by simp))]
    exact ih (fun x hx => h x (by simp [hx]))

theorem mem_trimLeftChars_or_ws (cs : List Char) :
    ∀ c ∈ cs, jsWhitespace c = true ∨ c ∈ trimLeftChars cs := by
  induction cs with
  | nil => simp
  | cons d ds ih =>
    intro c hc
    simp only [trimLeftChars]
    by_cases hw : jsWhitespace d
    · rw [if_pos hw]
      rcases List.mem_cons.mp hc with rfl | hc
      · exact Or.inl hw
      · exact ih c hc
    · rw [if_neg hw]
      exact Or.inr hc

theorem trimChars_all_ws (cs : List Char) (h : trimChars cs = []) :
    ∀ c ∈ cs, jsWhitespace c = true := by
  unfold trimChars at h
  have h1 : ∀ c ∈ (trimLeftChars cs.reverse).reverse, jsWhitespace c = true :=
    trimLeftChars_all_ws _ h
  intro c hc
  rcases mem_trimLeftChars_or_ws cs.reverse c (by simpa using hc) with hw | hm
  · exact hw
  · exact h1 c (by simpa using hm)


/-! Prefix and containment lemmas. -/

theorem charsPrefix_refl (l : List Char) : charsPrefix l l = true := by
  induction l with
  | nil => rfl
  | cons c cs ih => simp [charsPrefix, ih]

theorem charsPrefix_extend (p a c : List Char) (h : charsPrefix p a = true) :
    charsPrefix p (a ++ c) = true := by
  induction p generalizing a with
  | nil => rfl
  | cons x xs ih =>
    cases a with
    | nil => cases h
    | cons y ys =>
      simp only [charsPrefix, Bool.and_eq_true] at h
      simp only [List.cons_append, charsPrefix, Bool.and_eq_true]
      exact ⟨h.1, ih ys h.2⟩

theorem charsPrefix_append_inv (p xs ys : List Char)
    (h : charsPrefix p (xs ++ ys) = true) (hdisj : ∀ c ∈ ys, c ∉ p) :
    charsPrefix p xs = true := by
  induction p generalizing xs with
  | nil => rfl
  | cons q qs ih =>
    cases xs with
    | nil =>
      cases ys with
      | nil => cases h
      | cons y ys' =>
        simp only [List.nil_append, charsPrefix, Bool.and_eq_true] at h
        have : y ∈ q :: qs := by rw [← eq_of_beq h.1]; simp
        exact absurd this (hdisj y (by simp))
    | cons x xs' =>
      simp only [List.cons_append, charsPrefix, Bool.and_eq_true] at h
      simp only [charsPrefix, Bool.and_eq_true]
      exact ⟨h.1, ih xs' h.2 (fun c hc hm => hdisj c hc (by simp [hm]))⟩

theorem charsContains_suffix (n xs : List Char) :
    charsContains n (xs ++ n) = true := by
  induction xs with
  | nil =>
    cases n with
    | nil => rfl
    | cons c cs => simp [charsContains, charsPrefix_refl]
  | cons x xs ih =>
    simp [charsContains, ih]

theorem charsContains_head_notmem (hd : Char) (rest cs : List Char)
    (h : ∀ c ∈ cs, (c == hd) = false) :
    charsContains (hd :: rest) cs = false := by
  induction cs with
  | nil => rfl
  | cons c cs ih =>
    have hc : (hd == c) = false := by
      have := h c (by simp)
      cases hx : hd == c
      · rfl
      · rw [eq_of_beq hx] at this
        simp at this
    simp only [charsContains, charsPrefix, hc, Bool.false_and, Bool.false_or]
    exact ih (fun x hx => h x (by simp [hx]))

/-! Characters of `Nat.repr` are digits. -/

theorem toDigitsCore_digits (fuel : Nat) : ∀ (n : Nat) (ds : List Char),
    (∀ c ∈ ds, c.isDigit = true) →
    ∀ c ∈ Nat.toDigitsCore 10 fuel n ds, c.isDigit = true := by
  induction fuel with
  | zero =>
    intro n ds h c hc
    exact h c hc
  | succ fuel ih =>
    intro n ds h c hc
    have hdig : (Nat.digitChar (n % 10)).isDigit = true := by
      have hlt : n % 10 < 10 := Nat.mod_lt _ (by norm_num)
      set m := n % 10 with hm
      interval_cases m <;> decide
    rw [show Nat.toDigitsCore 10 (fuel + 1) n ds =
        (if n / 10 = 0 then (Nat.digitChar (n % 10)) :: ds
         else Nat.toDigitsCore 10 fuel (n / 10) ((Nat.digitChar (n % 10)) :: ds))
      from rfl] at hc
    by_cases hz : n / 10 = 0
    · rw [if_pos hz] at hc
      rcases List.mem_cons.mp hc with rfl | hc
      · exact hdig
      · exact h c hc
    · rw [if_neg hz] at hc
      refine ih (n / 10) _ ?_ c hc
      intro x hx
      rcases List.mem_cons.mp hx with rfl | hx
      · exact hdig
      · exact h x hx

theorem repr_digits (n : Nat) : ∀ c ∈ (Nat.repr n).data, c.isDigit = true := by
  intro c hc
  exact toDigitsCore_digits (n + 1) n [] (by simp) c hc

/-! Reassembling a string from its lines. -/

/-- The characters contributed by the second and later lines, each
preceded by the newline that separated it. -/
def joinTail (lls : List (List Char)) : List Char :=
  (lls.map (fun l => '\n' :: l)).flatten

theorem splitNl_reassemble (cs : List Char) :
    ∀ l ls, splitNl cs = l :: ls → cs = l ++ joinTail ls := by
  induction cs with
  | nil =>
    intro l ls h
    simp only [splitNl, List.cons.injEq] at h
    rw [← h.1, ← h.2]
    rfl
  | cons c cs ih =>
    intro l ls h
    by_cases hc : c = '\n'
    · subst hc
      simp only [splitNl, eq_self_iff_true, if_true, List.cons.injEq] at h
      obtain ⟨l₀, ls₀, hs⟩ : ∃ l₀ ls₀, splitNl cs = l₀ :: ls₀ := by
        cases hx : splitNl cs with
        | nil => exact absurd hx (splitNl_ne_nil cs)
        | cons a b => exact ⟨a, b, rfl⟩
      rw [← h.1, ← h.2, hs]
      have hcs := ih l₀ ls₀ hs
      simp [joinTail, hcs]
    · simp only [splitNl, hc, if_false] at h
      obtain ⟨l₀, ls₀, hs⟩ : ∃ l₀ ls₀, splitNl cs = l₀ :: ls₀ := by
        cases hx : splitNl cs with
        | nil => exact absurd hx (splitNl_ne_nil cs)
        | cons a b => exact ⟨a, b, rfl⟩
      rw [hs] at h
      simp only [List.cons.injEq] at h
      rw [← h.1, ← h.2]
      have := ih l₀ ls₀ hs
      simp [this]

/-! Wrapping a multi-line string in strike markers, line by line. -/

/-- Append `t` to the last line of a line list. -/
def modLast (t : List Char) : List (List Char) → List (List Char)
  | [] => [t]
  | [l] => [l ++ t]
  | l :: l' :: ls => l :: modLast t (l' :: ls)

/-- The line list of `"~~" ++ s ++ "~~"` in terms of the line list of
`s`: the first line gains a leading `~~`, the last a trailing one. -/
def wrapTildesLines (lls : List (List Char)) : List (List Char) :=
  match modLast ['~', '~'] lls with
  | [] => []
  | l :: ls => (['~', '~'] ++ l) :: ls

theorem modLast_ne_nil (t : List Char) (lls : List (List Char)) :
    modLast t lls ≠ [] := by
  match lls with
  | [] => simp [modLast]
  | [l] => simp [modLast]
  | l :: l' :: ls => simp [modLast]

theorem splitNl_prepend (t : List Char) (ht : ∀ x ∈ t, ¬ x = '\n') :
    ∀ (cs l : List Char) (ls : List (List Char)), splitNl cs = l :: ls →
      splitNl (t ++ cs) = (t ++ l) :: ls := by
  induction t with
  | nil => intro cs l ls h; simpa using h
  | cons c t ih =>
    intro cs l ls h
    have hc : ¬ c = '\n' := ht c (by simp)
    simp only [List.cons_append, splitNl, hc, if_false, List.append_eq]
    rw [ih (fun x hx => ht x (by simp [hx])) cs l ls h]

theorem splitNl_append_nonl (t : List Char) (ht : ∀ x ∈ t, ¬ x = '\n') :
    ∀ cs : List Char, splitNl (cs ++ t) = modLast t (splitNl cs) := by
  intro cs
  induction cs with
  | nil =>
    rw [List.nil_append, splitNl_no_nl t ht]
    rfl
  | cons c cs ih =>
    by_cases hc : c = '\n'
    · subst hc
      simp only [List.cons_append, splitNl, eq_self_iff_true, if_true,
        List.append_eq, ih]
      obtain ⟨l₀, ls₀, hs⟩ : ∃ l₀ ls₀, splitNl cs = l₀ :: ls₀ := by
        cases hx : splitNl cs with
        | nil => exact absurd hx (splitNl_ne_nil cs)
        | cons a b => exact ⟨a, b, rfl⟩
      rw [hs]
      cases ls₀ with
      | nil => rfl
      | cons l₁ ls₁ => rfl
    · obtain ⟨l₀, ls₀, hs⟩ : ∃ l₀ ls₀, splitNl cs = l₀ :: ls₀ := by
        cases hx : splitNl cs with
        | nil => exact absurd hx (splitNl_ne_nil cs)
        | cons a b => exact ⟨a, b, rfl⟩
      simp only [List.cons_append, splitNl, hc, if_false, List.append_eq, ih, hs]
      cases ls₀ with
      | nil => rfl
      | cons l₁ ls₁ => rfl

theorem splitNl_wrap (cs : List Char) :
    splitNl (['~', '~'] ++ (cs ++ ['~', '~'])) = wrapTildesLines (splitNl cs) := by
  have h1 : splitNl (cs ++ ['~', '~']) = modLast ['~', '~'] (splitNl cs) :=
    splitNl_append_nonl ['~', '~'] (by decide) cs
  obtain ⟨l, ls, hm⟩ : ∃ l ls, modLast ['~', '~'] (splitNl cs) = l :: ls := by
    cases hx : modLast ['~', '~'] (splitNl cs) with
    | nil => exact absurd hx (modLast_ne_nil _ _)
    | cons a b => exact ⟨a, b, rfl⟩
  rw [splitNl_prepend ['~', '~'] (by decide) (cs ++ ['~', '~']) l ls
    (by rw [h1, hm])]
  unfold wrapTildesLines
  rw [hm]

/-! Cleaning emitted lines back to the original lines. -/

theorem stripTildes_plain (l : List Char)
    (h1 : charsPrefix ['~', '~'] l = false)
    (h2 : charsPrefix ['~', '~'] l.reverse = false) :
    stripTildes l = l := by
  unfold stripTildes
  simp [h1, h2]

theorem stripTildes_first (l : List Char)
    (h2 : charsPrefix ['~', '~'] l.reverse = false) :
    stripTildes (['~', '~'] ++ l) = l := by
  unfold stripTildes
  have hpre : charsPrefix ['~', '~'] ('~' :: '~' :: l) = true := by
    simp [charsPrefix]
  simp [hpre, h2]

theorem stripTildes_last (l : List Char) (hne : l ≠ [])
    (h1 : charsPrefix ['~', '~'] l = false) :
    stripTildes (l ++ ['~', '~']) = l := by
  by_cases hp : charsPrefix ['~', '~'] (l ++ ['~', '~']) = true
  · have hl : l = ['~'] := by
      match l, hne with
      | [c], _ =>
        have : ('~' == c) = true := by
          simpa [charsPrefix] using hp
        rw [← eq_of_beq this]
      | c :: d :: rest, _ =>
        exfalso
        have : charsPrefix ['~', '~'] (c :: d :: rest) = true := by
          simpa [charsPrefix] using hp
        rw [h1] at this
        cases this
    subst hl
    decide
  · unfold stripTildes
    rw [Bool.not_eq_true] at hp
    have hrev : charsPrefix ['~', '~'] (l ++ ['~', '~']).reverse = true := by
      rw [show (l ++ ['~', '~']).reverse = '~' :: '~' :: l.reverse by simp]
      simp [charsPrefix]
    have hlen : (l ++ ['~', '~']).length - 2 = l.length := by simp
    simp only [hp, Bool.false_eq_true, if_false, hrev, if_true, hlen]
    exact List.take_left l ['~', '~']

theorem stripTildes_single (l : List Char) :
    stripTildes (['~', '~'] ++ (l ++ ['~', '~'])) = l := by
  unfold stripTildes
  have hpre : charsPrefix ['~', '~'] (['~', '~'] ++ (l ++ ['~', '~'])) = true :=
    charsPrefix_extend _ _ _ (charsPrefix_refl _)
  have hdrop : (['~', '~'] ++ (l ++ ['~', '~'])).drop 2 = l ++ ['~', '~'] := rfl
  have hrev : charsPrefix ['~', '~'] (l ++ ['~', '~']).reverse = true := by
    rw [show (l ++ ['~', '~']).reverse = '~' :: '~' :: l.reverse by simp]
    simp [charsPrefix]
  have hlen : (l ++ ['~', '~']).length - 2 = l.length := by simp
  simp only [hpre, if_true, hdrop, hrev, hlen]
  exact List.take_left l ['~', '~']

/-! Scanner step lemmas. -/

/-- A content line that the codec round-trips verbatim: non-empty,
already trimmed, no strike marker at either edge, not a heading, not a
separator and not the empty-block placeholder. -/
def goodLine (l : List Char) : Prop :=
  l ≠ [] ∧ trimChars l = l ∧
  charsPrefix ['~', '~'] l = false ∧
  charsPrefix ['~', '~'] l.reverse = false ∧
  charsPrefix ("## Block").data l = false ∧
  l ≠ ("---").data ∧ l ≠ ("*Empty block*").data

/-- Every line of the string round-trips verbatim. -/
def goodContent (s : String) : Prop :=
  ∀ l ∈ splitNl s.data, goodLine l

instance goodLineDec (l : List Char) : Decidable (goodLine l) := by
  unfold goodLine
  infer_instance

instance goodContentDec (s : String) : Decidable (goodContent s) := by
  unfold goodContent
  infer_instance

theorem scanLine_blank (idGen : Nat → String) (idx : Nat) (st : ScanState) :
    scanLine idGen idx st "" = st := by
  unfold scanLine
  rw [show strStartsWith "" "## Block" = false from rfl]
  rw [show (("" : String) == "---") = false from rfl]
  rw [show (jsTrim "" == "") = true from rfl]
  simp

theorem scanLine_preamble (idGen : Nat → String) (idx : Nat) (bl : List Block)
    (line : String) (h : strStartsWith line "## Block" = false) :
    scanLine idGen idx ⟨bl, none, false⟩ line = ⟨bl, none, false⟩ := by
  unfold scanLine
  rw [h]
  simp only [Bool.false_eq_true, if_false]
  by_cases h2 : (line == "---") = true
  · rw [h2]
    simp
  · rw [Bool.not_eq_true] at h2
    rw [h2]
    simp

theorem scanLine_heading (idGen : Nat → String) (idx : Nat) (st : ScanState)
    (line : String) (h : strStartsWith line "## Block" = true) :
    scanLine idGen idx st line =
      ⟨flushCurrent st,
        some ⟨idGen idx, "", strContains line "(Completed)", false⟩, true⟩ := by
  unfold scanLine
  rw [h]
  simp

theorem scanLine_sep (idGen : Nat → String) (idx : Nat) (st : ScanState) :
    scanLine idGen idx st "---" = { st with region := false } := by
  unfold scanLine
  rw [show strStartsWith "---" "## Block" = false from rfl]
  simp

theorem scanLine_content (idGen : Nat → String) (idx : Nat) (acc : List Block)
    (cur : Block) (w : List Char)
    (hhead : charsPrefix ("## Block").data w = false)
    (hsep : w ≠ ("---").data)
    (htrim : trimChars w ≠ [])
    (hclean : trimChars (stripTildes w) ≠ ("*Empty block*").data) :
    scanLine idGen idx ⟨acc, some cur, true⟩ ⟨w⟩ =
      ⟨acc, some ⟨cur.id, appendLine cur.content ⟨trimChars (stripTildes w)⟩,
        cur.done, cur.collapsed⟩, true⟩ := by
  unfold scanLine
  rw [show strStartsWith ⟨w⟩ "## Block" = charsPrefix ("## Block").data w from rfl,
    hhead]
  have hsep' : ((⟨w⟩ : String) == "---") = false := by
    rw [beq_eq_false_iff_ne]
    intro he
    exact hsep (congrArg String.data he)
  rw [hsep']
  have htrim' : (jsTrim ⟨w⟩ == "") = false := by
    rw [beq_eq_false_iff_ne]
    intro he
    exact htrim (congrArg String.data he)
  rw [htrim']
  have hclean' : ((⟨trimChars (stripTildes w)⟩ : String) == "*Empty block*") =
      false := by
    rw [beq_eq_false_iff_ne]
    intro he
    exact hclean (congrArg String.data he)
  simp [hclean']

theorem scanLines_append (idGen : Nat → String) (xs ys : List String) :
    ∀ (idx : Nat) (st : ScanState),
    scanLines idGen idx st (xs ++ ys) =
      scanLines idGen (idx + xs.length) (scanLines idGen idx st xs) ys := by
  induction xs with
  | nil => intro idx st; simp [scanLines]
  | cons x xs ih =>
    intro idx st
    simp only [List.cons_append, List.append_eq, scanLines]
    rw [ih]
    rw [show idx + (x :: xs).length = idx + 1 + xs.length by
      rw [List.length_cons]; omega]

theorem scanLines_plain (idGen : Nat → String) (ls : List (List Char)) :
    ∀ (idx : Nat) (acc : List Block) (cur : Block),
    (∀ l ∈ ls, goodLine l) →
    scanLines idGen idx ⟨acc, some cur, true⟩ (ls.map (fun l => (⟨l⟩ : String))) =
      ⟨acc, some ⟨cur.id, ls.foldl (fun c l => appendLine c ⟨l⟩) cur.content,
        cur.done, cur.collapsed⟩, true⟩ := by
  induction ls with
  | nil => intro idx acc cur h; simp [scanLines]
  | cons l ls ih =>
    intro idx acc cur h
    obtain ⟨hne, htr, hp1, hp2, hhd, hsp, hemp⟩ := h l (by simp)
    have hstrip : stripTildes l = l := stripTildes_plain l hp1 hp2
    simp only [List.map_cons, scanLines]
    rw [scanLine_content idGen idx acc cur l hhd hsp
      (by rw [htr]; exact hne) (by rw [hstrip, htr]; exact hemp)]
    rw [ih (idx + 1) acc _ (fun x hx => h x (by simp [hx]))]
    rw [hstrip, htr]
    simp [List.foldl_cons]

theorem scanLines_wrapTail (idGen : Nat → String) (ls : List (List Char)) :
    ∀ (idx : Nat) (acc : List Block) (cur : Block),
    ls ≠ [] →
    (∀ l ∈ ls, goodLine l) →
    scanLines idGen idx ⟨acc, some cur, true⟩
      ((modLast ['~', '~'] ls).map (fun l => (⟨l⟩ : String))) =
      ⟨acc, some ⟨cur.id, ls.foldl (fun c l => appendLine c ⟨l⟩) cur.content,
        cur.done, cur.collapsed⟩, true⟩ := by
  induction ls with
  | nil => intro idx acc cur hne; exact absurd rfl hne
  | cons l ls ih =>
    intro idx acc cur _ h
    obtain ⟨hne, htr, hp1, hp2, hhd, hsp, hemp⟩ := h l (by simp)
    cases ls with
    | nil =>
      simp only [modLast, List.map_cons, List.map_nil, scanLines]
      have hhd2 : charsPrefix ("## Block").data (l ++ ['~', '~']) = false := by
        cases hx : charsPrefix ("## Block").data (l ++ ['~', '~']) with
        | false => rfl
        | true =>
          have := charsPrefix_append_inv _ _ _ hx (by decide)
          rw [hhd] at this
          cases this
      have hsp2 : l ++ ['~', '~'] ≠ ("---").data := by
        intro he
        have := congrArg List.reverse he
        simp at this
      have htr2 : trimChars (l ++ ['~', '~']) ≠ [] := by
        intro he
        have := trimChars_all_ws _ he '~' (by simp)
        cases this
      have hstrip : stripTildes (l ++ ['~', '~']) = l := stripTildes_last l hne hp1
      rw [scanLine_content idGen idx acc cur (l ++ ['~', '~']) hhd2 hsp2 htr2
        (by rw [hstrip, htr]; exact hemp)]
      simp only [scanLines, List.foldl_cons, List.foldl_nil]
      rw [hstrip, htr]
    | cons l' ls' =>
      rw [show modLast ['~', '~'] (l :: l' :: ls') =
        l :: modLast ['~', '~'] (l' :: ls') from rfl]
      simp only [List.map_cons, scanLines]
      have hstrip : stripTildes l = l := stripTildes_plain l hp1 hp2
      rw [scanLine_content idGen idx acc cur l hhd hsp
        (by rw [htr]; exact hne) (by rw [hstrip, htr]; exact hemp)]
      rw [ih (idx + 1) acc _ (by simp) (fun x hx => h x (by simp [hx]))]
      rw [hstrip, htr]
      simp [List.foldl_cons]

theorem stringExt (s t : String) (h : s.data = t.data) : s = t := by
  cases s
  cases t
  exact congrArg String.mk h

theorem charsPrefix_head_ne (c : Char) (p : List Char) (d : Char) (r : List Char)
    (h : (c == d) = false) : charsPrefix (c :: p) (d :: r) = false := by
  simp [charsPrefix, h]

theorem cons_ne_of_head (c d : Char) (r s : List Char) (h : ¬ c = d) :
    c :: r ≠ d :: s := by
  intro he
  injection he with h1 _
  exact h h1

theorem scanLines_wrapped (idGen : Nat → String) (l₀ : List Char)
    (ls : List (List Char)) (idx : Nat) (acc : List Block) (cur : Block)
    (h : ∀ l ∈ l₀ :: ls, goodLine l) :
    scanLines idGen idx ⟨acc, some cur, true⟩
      ((wrapTildesLines (l₀ :: ls)).map (fun l => (⟨l⟩ : String))) =
      ⟨acc, some ⟨cur.id,
        (l₀ :: ls).foldl (fun c l => appendLine c ⟨l⟩) cur.content,
        cur.done, cur.collapsed⟩, true⟩ := by
  obtain ⟨hne, htr, hp1, hp2, hhd, hsp, hemp⟩ := h l₀ (by simp)
  cases ls with
  | nil =>
    rw [show wrapTildesLines [l₀] = [['~', '~'] ++ (l₀ ++ ['~', '~'])] from rfl]
    simp only [List.map_cons, List.map_nil, scanLines]
    have hhd2 : charsPrefix ("## Block").data
        (['~', '~'] ++ (l₀ ++ ['~', '~'])) = false := by
      rw [show ['~', '~'] ++ (l₀ ++ ['~', '~']) =
        '~' :: ('~' :: (l₀ ++ ['~', '~'])) from rfl]
      rw [show ("## Block").data = '#' :: ("# Block").data from rfl]
      exact charsPrefix_head_ne _ _ _ _ (by decide)
    have hsp2 : ['~', '~'] ++ (l₀ ++ ['~', '~']) ≠ ("---").data := by
      rw [show ['~', '~'] ++ (l₀ ++ ['~', '~']) =
        '~' :: ('~' :: (l₀ ++ ['~', '~'])) from rfl]
      rw [show ("---").data = '-' :: ('-' :: ('-' :: [])) from rfl]
      exact cons_ne_of_head _ _ _ _ (by decide)
    have htr2 : trimChars (['~', '~'] ++ (l₀ ++ ['~', '~'])) ≠ [] := by
      intro he
      have := trimChars_all_ws _ he '~' (by simp)
      cases this
    have hstrip : stripTildes (['~', '~'] ++ (l₀ ++ ['~', '~'])) = l₀ :=
      stripTildes_single l₀
    rw [scanLine_content idGen idx acc cur _ hhd2 hsp2 htr2
      (by rw [hstrip, htr]; exact hemp)]
    simp only [scanLines, List.foldl_cons, List.foldl_nil]
    rw [hstrip, htr]
  | cons l₁ ls' =>
    rw [show wrapTildesLines (l₀ :: l₁ :: ls') =
      (['~', '~'] ++ l₀) :: modLast ['~', '~'] (l₁ :: ls') from rfl]
    simp only [List.map_cons, scanLines]
    have hhd2 : charsPrefix ("## Block").data (['~', '~'] ++ l₀) = false := by
      rw [show ['~', '~'] ++ l₀ = '~' :: ('~' :: l₀) from rfl]
      rw [show ("## Block").data = '#' :: ("# Block").data from rfl]
      exact charsPrefix_head_ne _ _ _ _ (by decide)
    have hsp2 : ['~', '~'] ++ l₀ ≠ ("---").data := by
      rw [show ['~', '~'] ++ l₀ = '~' :: ('~' :: l₀) from rfl]
      rw [show ("---").data = '-' :: ('-' :: ('-' :: [])) from rfl]
      exact cons_ne_of_head _ _ _ _ (by decide)
    have htr2 : trimChars (['~', '~'] ++ l₀) ≠ [] := by
      intro he
      have := trimChars_all_ws _ he '~' (by simp)
      cases this
    have hstrip : stripTildes (['~', '~'] ++ l₀) = l₀ := stripTildes_first l₀ hp2
    rw [scanLine_content idGen idx acc cur _ hhd2 hsp2 htr2
      (by rw [hstrip, htr]; exact hemp)]
    rw [scanLines_wrapTail idGen (l₁ :: ls') (idx + 1) acc _ (by simp)
      (fun x hx => h x (by simp [hx]))]
    rw [hstrip, htr]
    simp [List.foldl_cons]

/-! Reassembling a block's content from the accumulation fold. -/

theorem foldl_appendLine_aux (ls : List (List Char)) :
    ∀ c : List Char, c ≠ [] →
    ls.foldl (fun c l => appendLine c ⟨l⟩) ⟨c⟩ = ⟨c ++ joinTail ls⟩ := by
  induction ls with
  | nil =>
    intro c _
    simp [joinTail]
  | cons l ls ih =>
    intro c hne
    have hc : ((⟨c⟩ : String) == "") = false := by
      rw [beq_eq_false_iff_ne]
      intro he
      exact hne (congrArg String.data he)
    have hstep : appendLine ⟨c⟩ ⟨l⟩ = (⟨c ++ '\n' :: l⟩ : String) := by
      unfold appendLine
      rw [hc]
      simp only [Bool.false_eq_true, if_false]
      exact stringExt _ _ (by simp)
    rw [List.foldl_cons, hstep, ih (c ++ '\n' :: l) (by simp)]
    exact stringExt _ _ (by simp [joinTail])

theorem foldl_appendLine_splitNl (s : String)
    (h : ∀ l ∈ splitNl s.data, l ≠ []) :
    (splitNl s.data).foldl (fun c l => appendLine c ⟨l⟩) "" = s := by
  obtain ⟨l₀, ls, hs⟩ : ∃ l₀ ls, splitNl s.data = l₀ :: ls := by
    cases hx : splitNl s.data with
    | nil => exact absurd hx (splitNl_ne_nil _)
    | cons a b => exact ⟨a, b, rfl⟩
  rw [hs, List.foldl_cons]
  rw [show appendLine "" ⟨l₀⟩ = (⟨l₀⟩ : String) from rfl]
  rw [foldl_appendLine_aux ls l₀ (h l₀ (by rw [hs]; simp))]
  have hre := splitNl_reassemble s.data l₀ ls hs
  exact stringExt _ _ hre.symm

/-! Consequences of `goodContent`. -/

theorem mem_ne_nl_of_all (l : List Char)
    (hdec : l.all (fun c => !(c == '\n')) = true) : ∀ c ∈ l, ¬ c = '\n' := by
  intro c hc he
  have := List.all_eq_true.mp hdec c hc
  rw [he] at this
  simp at this

theorem digit_beq_false (c d : Char) (hc : c.isDigit = true)
    (hd : d.isDigit = false) : (c == d) = false := by
  cases hx : c == d with
  | false => rfl
  | true =>
    rw [eq_of_beq hx] at hc
    rw [hc] at hd
    cases hd

theorem digit_ne_nl (c : Char) (h : c.isDigit = true) : ¬ c = '\n' := by
  intro he
  rw [he] at h
  cases h

theorem trimChars_of_all_ws (cs : List Char)
    (h : ∀ c ∈ cs, jsWhitespace c = true) : trimChars cs = [] := by
  unfold trimChars
  rw [trimLeftChars_of_all_ws cs.reverse (fun c hc => h c (by simpa using hc))]
  rfl

theorem goodContent_ne_empty (s : String) (h : goodContent s) :
    (s == "") = false := by
  cases hx : s == "" with
  | false => rfl
  | true =>
    have hs : s = "" := eq_of_beq hx
    subst hs
    have := (h [] (by rw [show splitNl ("" : String).data = [[]] from rfl]; simp)).1
    exact absurd rfl this

theorem goodContent_trim_ne (s : String) (h : goodContent s) :
    (jsTrim s == "") = false := by
  obtain ⟨l₀, ls, hs⟩ : ∃ l₀ ls, splitNl s.data = l₀ :: ls := by
    cases hx : splitNl s.data with
    | nil => exact absurd hx (splitNl_ne_nil _)
    | cons a b => exact ⟨a, b, rfl⟩
  obtain ⟨hne, htr, _⟩ := h l₀ (by rw [hs]; simp)
  cases hx : jsTrim s == "" with
  | false => rfl
  | true =>
    have hdata : trimChars s.data = [] :=
      congrArg String.data (eq_of_beq hx)
    have hws : ∀ c ∈ s.data, jsWhitespace c = true := trimChars_all_ws _ hdata
    have hsub : s.data = l₀ ++ joinTail ls := splitNl_reassemble s.data l₀ ls hs
    have hl₀ : trimChars l₀ = [] := by
      refine trimChars_of_all_ws l₀ (fun c hc => hws c ?_)
      rw [hsub]
      exact List.mem_append_left _ hc
    rw [htr] at hl₀
    exact absurd hl₀ hne

/-! The exported lines of one block section. -/

/-- The heading line emitted for a block section. -/
def sectionHeading (idx : Nat) (b : Block) : String :=
  "## Block " ++ toString (idx + 1) ++ " "
    ++ (if b.done then "(Completed)" else "")

/-- The content lines emitted for a block section (strike-wrapped when
the block is done). -/
def sectionBodyLines (b : Block) : List String :=
  (if b.done then wrapTildesLines (splitNl b.content.data)
   else splitNl b.content.data).map (fun l => (⟨l⟩ : String))

theorem sectionHeading_no_nl (idx : Nat) (b : Block) :
    ∀ c ∈ (sectionHeading idx b).data, ¬ c = '\n' := by
  intro c hc
  simp only [sectionHeading, String.data_append, List.mem_append] at hc
  rcases hc with ((hc | hc) | hc) | hc
  · exact mem_ne_nl_of_all _ (by decide) c hc
  · exact digit_ne_nl c (repr_digits (idx + 1) c hc)
  · exact mem_ne_nl_of_all _ (by decide) c hc
  · cases hb : b.done with
    | true =>
      have hc2 : c ∈ ("(Completed)" : String).data := by
        rw [hb] at hc
        exact hc
      exact mem_ne_nl_of_all (("(Completed)" : String).data) (by decide) c hc2
    | false =>
      have hc2 : c ∈ ("" : String).data := by
        rw [hb] at hc
        exact hc
      rw [show ("" : String).data = ([] : List Char) from rfl] at hc2
      exact absurd hc2 (List.not_mem_nil c)

theorem sectionHeading_starts (idx : Nat) (b : Block) :
    strStartsWith (sectionHeading idx b) "## Block" = true := by
  unfold strStartsWith sectionHeading
  simp only [String.data_append, List.append_assoc]
  exact charsPrefix_extend _ _ _ (by decide)

theorem sectionHeading_done (idx : Nat) (b : Block) (h : b.done = true) :
    strContains (sectionHeading idx b) "(Completed)" = true := by
  unfold strContains sectionHeading
  rw [h]
  simp only [if_true, String.data_append]
  exact charsContains_suffix _ _

theorem mem_all_beq_false (l : List Char) (d : Char)
    (h : l.all (fun c => !(c == d)) = true) : ∀ c ∈ l, (c == d) = false := by
  intro c hc
  have h2 := List.all_eq_true.mp h c hc
  cases hx : c == d with
  | false => rfl
  | true =>
    rw [hx] at h2
    cases h2

theorem sectionHeading_notdone (idx : Nat) (b : Block) (h : b.done = false) :
    strContains (sectionHeading idx b) "(Completed)" = false := by
  unfold strContains sectionHeading
  rw [h]
  simp only [Bool.false_eq_true, if_false]
  refine charsContains_head_notmem _ _ _ ?_
  intro c hc
  simp only [String.data_append, List.mem_append] at hc
  rcases hc with ((hc | hc) | hc) | hc
  · exact mem_all_beq_false (("## Block " : String).data) '(' (by decide) c hc
  · exact digit_beq_false c '(' (repr_digits (idx + 1) c hc) (by decide)
  · exact mem_all_beq_false ((" " : String).data) '(' (by decide) c hc
  · exact absurd hc (List.not_mem_nil c)

theorem splitLines_blockSection (idx : Nat) (b : Block) (rest : String)
    (hne : (b.content == "") = false) :
    splitLines (blockSectionMd idx b ++ rest) =
      sectionHeading idx b :: "" ::
        (sectionBodyLines b ++ "" :: "---" :: "" :: splitLines rest) := by
  have hcanon : blockSectionMd idx b ++ rest =
      sectionHeading idx b ++ "\n" ++
        ("\n" ++ (((if b.done then ("~~" : String) else "") ++
          (b.content ++ (if b.done then ("~~" : String) else ""))) ++ "\n" ++
          ("\n" ++ ("---" ++ "\n" ++ ("\n" ++ rest))))) := by
    apply stringExt
    simp [blockSectionMd, sectionHeading, String.data_append, List.append_assoc,
      hne]
  rw [hcanon]
  rw [splitLines_append_mid _ _ (sectionHeading_no_nl idx b)]
  rw [splitLines_cons_nl]
  rw [splitLines_append_gen]
  rw [splitLines_cons_nl]
  rw [splitLines_append_mid "---" _ (by decide)]
  rw [splitLines_cons_nl]
  have hW : splitLines ((if b.done then ("~~" : String) else "") ++
      (b.content ++ (if b.done then ("~~" : String) else ""))) =
      sectionBodyLines b := by
    cases hb : b.done with
    | false =>
      simp only [Bool.false_eq_true, if_false]
      rw [String.empty_append, String.append_empty]
      unfold splitLines sectionBodyLines
      rw [hb]
      simp
    | true =>
      simp only [if_true]
      unfold splitLines sectionBodyLines
      rw [hb]
      simp only [if_true]
      rw [show ("~~" ++ (b.content ++ "~~")).data =
        ['~', '~'] ++ (b.content.data ++ ['~', '~']) from rfl]
      rw [splitNl_wrap]
  rw [hW]

/-- The lines that the export emits for a list of block sections,
including the final empty line left by the trailing newline. -/
def sectionLinesList : Nat → List Block → List String
  | _, [] => [""]
  | idx, b :: bs =>
    sectionHeading idx b :: "" ::
      (sectionBodyLines b ++ "" :: "---" :: "" :: sectionLinesList (idx + 1) bs)

theorem splitLines_blocksMd (bs : List Block) : ∀ idx : Nat,
    (∀ b ∈ bs, (b.content == "") = false) →
    splitLines (blocksMd idx bs) = sectionLinesList idx bs := by
  induction bs with
  | nil =>
    intro idx _
    rfl
  | cons b bs ih =>
    intro idx h
    rw [show blocksMd idx (b :: bs) =
      blockSectionMd idx b ++ blocksMd (idx + 1) bs from rfl]
    rw [splitLines_blockSection idx b _ (h b (by simp))]
    rw [ih (idx + 1) (fun x hx => h x (by simp [hx]))]
    rfl

/-- The block a pending `current` contributes at flush time. -/
def optB : Option Block → List Block
  | none => []
  | some c => [c]

theorem flushCurrent_optB (acc : List Block) (copt : Option Block) (r : Bool)
    (hcur : ∀ c, copt = some c → (jsTrim c.content == "") = false) :
    flushCurrent ⟨acc, copt, r⟩ = acc ++ optB copt := by
  cases copt with
  | none => simp [flushCurrent, optB]
  | some c =>
    rw [show flushCurrent ⟨acc, some c, r⟩ =
      (if (jsTrim c.content == "") = true then acc else acc ++ [c]) from rfl]
    rw [hcur c rfl]
    simp [optB]

theorem scanSections (idGen : Nat → String) (bs : List Block) :
    ∀ (n k : Nat) (acc : List Block) (copt : Option Block),
    (∀ b ∈ bs, goodContent b.content) →
    (∀ c, copt = some c → (jsTrim c.content == "") = false) →
    ∃ ids : List String, ids.length = bs.length ∧
      flushCurrent (scanLines idGen k ⟨acc, copt, false⟩
          (sectionLinesList n bs)) =
        acc ++ optB copt ++ (ids.zip bs).map
          (fun p => (⟨p.1, p.2.content, p.2.done, false⟩ : Block)) := by
  induction bs with
  | nil =>
    intro n k acc copt _ hcur
    refine ⟨[], rfl, ?_⟩
    rw [show sectionLinesList n [] = [""] from rfl]
    rw [show scanLines idGen k ⟨acc, copt, false⟩ [""] =
      scanLine idGen k ⟨acc, copt, false⟩ "" from rfl]
    rw [scanLine_blank]
    rw [flushCurrent_optB acc copt false hcur]
    simp
  | cons b bs ih =>
    intro n k acc copt hgood hcur
    have hgb : goodContent b.content := hgood b (by simp)
    have hlines : ∀ l ∈ splitNl b.content.data, goodLine l := hgb
    rw [show sectionLinesList n (b :: bs) = sectionHeading n b :: "" ::
      (sectionBodyLines b ++ "" :: "---" :: "" :: sectionLinesList (n + 1) bs)
      from rfl]
    simp only [scanLines]
    rw [scanLine_heading idGen k _ _ (sectionHeading_starts n b)]
    have hcont : strContains (sectionHeading n b) "(Completed)" = b.done := by
      cases hb : b.done with
      | false => exact sectionHeading_notdone n b hb
      | true => exact sectionHeading_done n b hb
    rw [hcont]
    rw [flushCurrent_optB acc copt false hcur]
    rw [scanLine_blank]
    rw [scanLines_append]
    have hbody : scanLines idGen (k + 2)
        ⟨acc ++ optB copt, some ⟨idGen k, "", b.done, false⟩, true⟩
        (sectionBodyLines b) =
        ⟨acc ++ optB copt, some ⟨idGen k, b.content, b.done, false⟩, true⟩ := by
      have hrec := foldl_appendLine_splitNl b.content
        (fun l hl => (hlines l hl).1)
      cases hb : b.done with
      | false =>
        rw [show sectionBodyLines b =
          (splitNl b.content.data).map (fun l => (⟨l⟩ : String)) by
            unfold sectionBodyLines
            rw [hb]
            simp]
        rw [scanLines_plain idGen (splitNl b.content.data) (k + 2)
          (acc ++ optB copt) ⟨idGen k, "", false, false⟩ hlines]
        simp [hrec]
      | true =>
        obtain ⟨l₀, ls, hs⟩ : ∃ l₀ ls, splitNl b.content.data = l₀ :: ls := by
          cases hx : splitNl b.content.data with
          | nil => exact absurd hx (splitNl_ne_nil _)
          | cons a c => exact ⟨a, c, rfl⟩
        rw [show sectionBodyLines b =
          (wrapTildesLines (splitNl b.content.data)).map
            (fun l => (⟨l⟩ : String)) by
            unfold sectionBodyLines
            rw [hb]
            simp]
        rw [hs]
        rw [scanLines_wrapped idGen l₀ ls (k + 2) (acc ++ optB copt)
          ⟨idGen k, "", true, false⟩ (by rw [← hs]; exact hlines)]
        rw [hs] at hrec
        simp [hrec]
    rw [hbody]
    simp only [scanLines]
    rw [scanLine_blank, scanLine_sep, scanLine_blank]
    rw [show ({ (⟨acc ++ optB copt,
      some ⟨idGen k, b.content, b.done, false⟩, true⟩ : ScanState) with
      region := false }) = (⟨acc ++ optB copt,
      some ⟨idGen k, b.content, b.done, false⟩, false⟩ : ScanState) from rfl]
    obtain ⟨ids, hlen, hflush⟩ := ih (n + 1)
      (k + 2 + (sectionBodyLines b).length + 3) (acc ++ optB copt)
      (some ⟨idGen k, b.content, b.done, false⟩)
      (fun x hx => hgood x (by simp [hx]))
      (by
        intro c hc
        injection hc with hc
        rw [← hc]
        exact goodContent_trim_ne b.content hgb)
    refine ⟨idGen k :: ids, by simp [hlen], ?_⟩
    rw [hflush]
    simp [optB, List.append_assoc]

/-! The preamble lines of an exported document. -/

/-- The `*Created: ...*` line of the export. -/
def createdLine (dateStr : String) : String :=
  "*Created: " ++ (dateStr ++ "*")

/-- The `*Blocks: N (M active)*` line of the export. -/
def blocksLine (plan : Plan) : String :=
  "*Blocks: " ++ (toString plan.blocks.length ++ (" (" ++
    (toString (plan.blocks.filter (fun b => !b.done)).length ++ " active)*")))

theorem createdLine_not_heading (d : String) :
    strStartsWith (createdLine d) "## Block" = false := by
  rw [show strStartsWith (createdLine d) "## Block" =
    charsPrefix ("## Block").data (createdLine d).data from rfl]
  rw [show (createdLine d).data =
    '*' :: (("Created: " : String).data ++ (d ++ "*").data) from rfl]
  rw [show ("## Block").data = '#' :: ("# Block").data from rfl]
  exact charsPrefix_head_ne _ _ _ _ (by decide)

theorem blocksLine_not_heading (p : Plan) :
    strStartsWith (blocksLine p) "## Block" = false := by
  rw [show strStartsWith (blocksLine p) "## Block" =
    charsPrefix ("## Block").data (blocksLine p).data from rfl]
  rw [show (blocksLine p).data = '*' :: (("Blocks: " : String).data ++
    (toString p.blocks.length ++ (" (" ++
      (toString (p.blocks.filter (fun b => !b.done)).length ++
        " active)*"))).data) from rfl]
  rw [show ("## Block").data = '#' :: ("# Block").data from rfl]
  exact charsPrefix_head_ne _ _ _ _ (by decide)

theorem createdLine_no_nl (d : String) (hdnl : ∀ c ∈ d.data, ¬ c = '\n') :
    ∀ c ∈ (createdLine d).data, ¬ c = '\n' := by
  intro c hc
  simp only [createdLine, String.data_append, List.mem_append] at hc
  rcases hc with hc | hc | hc
  · exact mem_ne_nl_of_all _ (by decide) c hc
  · exact hdnl c hc
  · exact mem_ne_nl_of_all _ (by decide) c hc

theorem blocksLine_no_nl (p : Plan) :
    ∀ c ∈ (blocksLine p).data, ¬ c = '\n' := by
  intro c hc
  simp only [blocksLine, String.data_append, List.mem_append] at hc
  rcases hc with hc | hc | hc | hc | hc
  · exact mem_ne_nl_of_all _ (by decide) c hc
  · exact digit_ne_nl c (repr_digits _ c hc)
  · exact mem_ne_nl_of_all _ (by decide) c hc
  · exact digit_ne_nl c (repr_digits _ c hc)
  · exact mem_ne_nl_of_all _ (by decide) c hc

theorem splitLines_export (dateStr : String) (plan : Plan)
    (htnl : ∀ c ∈ plan.title.data, ¬ c = '\n')
    (hdnl : ∀ c ∈ dateStr.data, ¬ c = '\n')
    (hgood : ∀ b ∈ plan.blocks, goodContent b.content) :
    splitLines (generateMarkdownForPlan dateStr plan) =
      ("# " ++ plan.title) :: "" :: createdLine dateStr :: "" ::
        blocksLine plan :: "" :: "---" :: "" ::
          sectionLinesList 0 plan.blocks := by
  have hcanon : generateMarkdownForPlan dateStr plan =
      ("# " ++ plan.title) ++ "\n" ++
        ("\n" ++ (createdLine dateStr ++ "\n" ++
          ("\n" ++ (blocksLine plan ++ "\n" ++
            ("\n" ++ ("---" ++ "\n" ++
              ("\n" ++ blocksMd 0 plan.blocks))))))) := by
    apply stringExt
    simp [generateMarkdownForPlan, createdLine, blocksLine, String.data_append,
      List.append_assoc]
  rw [hcanon]
  rw [splitLines_append_mid _ _ (by
    intro c hc
    simp only [String.data_append, List.mem_append] at hc
    rcases hc with hc | hc
    · exact mem_ne_nl_of_all _ (by decide) c hc
    · exact htnl c hc)]
  rw [splitLines_cons_nl]
  rw [splitLines_append_mid _ _ (createdLine_no_nl dateStr hdnl)]
  rw [splitLines_cons_nl]
  rw [splitLines_append_mid _ _ (blocksLine_no_nl plan)]
  rw [splitLines_cons_nl]
  rw [splitLines_append_mid "---" _ (by decide)]
  rw [splitLines_cons_nl]
  rw [splitLines_blocksMd plan.blocks 0
    (fun b hb => goodContent_ne_empty b.content (hgood b hb))]

/-! Recovering the title from the exported heading line. -/

theorem trimLeftChars_length_le (l : List Char) :
    (trimLeftChars l).length ≤ l.length := by
  induction l with
  | nil => simp [trimLeftChars]
  | cons c rest ih =>
    simp only [trimLeftChars]
    by_cases hw : jsWhitespace c
    · rw [if_pos hw]
      simp only [List.length_cons]
      omega
    · rw [if_neg hw]

theorem head_not_ws_of_trimLeft (l : List Char) (hne : l ≠ [])
    (h : trimLeftChars l = l) :
    ∃ c rest, l = c :: rest ∧ jsWhitespace c = false := by
  cases l with
  | nil => exact absurd rfl hne
  | cons c rest =>
    refine ⟨c, rest, rfl, ?_⟩
    cases hw : jsWhitespace c with
    | false => rfl
    | true =>
      simp only [trimLeftChars, hw, if_true] at h
      have hlen := congrArg List.length h
      have hle : (trimLeftChars rest).length ≤ rest.length :=
        trimLeftChars_length_le rest
      simp only [List.length_cons] at hlen
      omega

theorem stripTitle_recover (t : List Char) (c₀ : Char) (rest : List Char)
    (ht : t = c₀ :: rest) (hws : jsWhitespace c₀ = false) :
    stripTitleHash ('#' :: ' ' :: t) = t := by
  subst ht
  rw [show stripTitleHash ('#' :: ' ' :: c₀ :: rest) =
    (if jsWhitespace ' ' then (' ' :: c₀ :: rest).dropWhile
      (fun d => jsWhitespace d) else '#' :: ' ' :: c₀ :: rest) from rfl]
  rw [if_pos (show jsWhitespace ' ' = true from by decide)]
  rw [show (' ' :: c₀ :: rest).dropWhile (fun d => jsWhitespace d) =
    (c₀ :: rest).dropWhile (fun d => jsWhitespace d) from
      List.dropWhile_cons_of_pos (by decide)]
  rw [List.dropWhile_cons_of_neg (by simp [hws])]

theorem zip_build_map {γ : Type} (f : Block → γ)
    (hf : ∀ (i : String) (b : Block),
      f (⟨i, b.content, b.done, false⟩ : Block) = f b) :
    ∀ (ids : List String) (bs : List Block), ids.length = bs.length →
    ((ids.zip bs).map
      (fun p => (⟨p.1, p.2.content, p.2.done, false⟩ : Block))).map f =
      bs.map f := by
  intro ids
  induction ids with
  | nil =>
    intro bs hl
    cases bs with
    | nil => rfl
    | cons b bs => cases hl
  | cons i ids ih =>
    intro bs hl
    cases bs with
    | nil => cases hl
    | cons b bs =>
      simp only [List.zip_cons_cons, List.map_cons]
      rw [hf i b]
      rw [ih bs (by simpa using hl)]

/-- C3 (amended): importing the export of a plan reconstructs the title,
the number of blocks, the done flags in order, and every block's content
exactly, provided that the title is non-empty with no newline and no
leading whitespace, the date rendering has no newline, the plan has at
least one block, and every line of every block's content is non-empty,
pre-trimmed, not strike-marked at either edge, and not a heading, a
`---` separator or the `*Empty block*` placeholder.  Plan id, block ids,
timestamps and collapsed flags are regenerated, so they are not
asserted.  The claim's original precondition — non-empty trimmed content
only — is refuted by `roundtrip_content_counterexample`. -/
theorem roundtrip_title_done_content (idGen : Nat → String)
    (planId fallbackBlockId nowIso fileName dateStr : String) (plan : Plan)
    (htne : plan.title ≠ "")
    (htnl : ∀ c ∈ plan.title.data, ¬ c = '\n')
    (hthead : trimLeftChars plan.title.data = plan.title.data)
    (hdnl : ∀ c ∈ dateStr.data, ¬ c = '\n')
    (hbne : plan.blocks ≠ [])
    (hgood : ∀ b ∈ plan.blocks, goodContent b.content) :
    (parseMarkdownToPlan idGen planId fallbackBlockId nowIso
        (generateMarkdownForPlan dateStr plan) fileName).title =
      plan.title ∧
    (parseMarkdownToPlan idGen planId fallbackBlockId nowIso
        (generateMarkdownForPlan dateStr plan) fileName).blocks.length =
      plan.blocks.length ∧
    (parseMarkdownToPlan idGen planId fallbackBlockId nowIso
        (generateMarkdownForPlan dateStr plan) fileName).blocks.map
        (fun b => b.done) = plan.blocks.map (fun b => b.done) ∧
    (parseMarkdownToPlan idGen planId fallbackBlockId nowIso
        (generateMarkdownForPlan dateStr plan) fileName).blocks.map
        (fun b => b.content) = plan.blocks.map (fun b => b.content) := by
  have hlines := splitLines_export dateStr plan htnl hdnl hgood
  obtain ⟨ids, hlen, hflush⟩ := scanSections idGen plan.blocks 0 8 [] none
    hgood (fun c hc => Option.noConfusion hc)
  have hblocks : (parseMarkdownToPlan idGen planId fallbackBlockId nowIso
      (generateMarkdownForPlan dateStr plan) fileName).blocks =
      (ids.zip plan.blocks).map
        (fun p => (⟨p.1, p.2.content, p.2.done, false⟩ : Block)) := by
    simp only [parseMarkdownToPlan]
    simp only [hlines]
    simp only [List.drop_succ_cons, List.drop_zero]
    simp only [scanLines]
    rw [scanLine_blank, scanLine_blank, scanLine_blank, scanLine_blank]
    rw [scanLine_preamble idGen _ [] _ (createdLine_not_heading dateStr)]
    rw [scanLine_preamble idGen _ [] _ (blocksLine_not_heading plan)]
    rw [scanLine_preamble idGen _ [] _ (by decide)]
    norm_num
    rw [hflush]
    simp only [optB, List.nil_append]
    rw [if_neg (show ¬ (ids.zip plan.blocks).map
        (fun p => (⟨p.1, p.2.content, p.2.done, false⟩ : Block)) = [] from by
        intro h0
        have hl0 := congrArg List.length h0
        simp only [List.length_map, List.length_zip, hlen, Nat.min_self,
          List.length_nil] at hl0
        exact hbne (List.length_eq_zero.mp hl0))]
  have htitle : (parseMarkdownToPlan idGen planId fallbackBlockId nowIso
      (generateMarkdownForPlan dateStr plan) fileName).title = plan.title := by
    obtain ⟨c₀, rest, ht, hws⟩ := head_not_ws_of_trimLeft plan.title.data
      (by
        intro h0
        exact htne (stringExt plan.title "" (by rw [h0]))) hthead
    simp only [parseMarkdownToPlan]
    simp only [hlines]
    simp only [List.headD_cons]
    simp only [show ("# " ++ plan.title).data =
      '#' :: ' ' :: plan.title.data from rfl]
    simp only [stripTitle_recover plan.title.data c₀ rest ht hws]
    simp only [show (⟨plan.title.data⟩ : String) = plan.title from rfl]
    simp only [beq_eq_false_iff_ne.mpr htne]
    simp
  refine ⟨htitle, ?_, ?_, ?_⟩
  · rw [hblocks, List.length_map, List.length_zip, hlen, Nat.min_self]
  · rw [hblocks]
    exact zip_build_map (fun b => b.done) (fun i b => rfl) ids plan.blocks hlen
  · rw [hblocks]
    exact zip_build_map (fun b => b.content) (fun i b => rfl) ids
      plan.blocks hlen

/-- Witness for C3's amended round trip: a two-block plan (one completed
block, one active) survives export and re-import with title, block
count, done flags and contents intact. -/
theorem roundtrip_title_done_content_witness :
    (parseMarkdownToPlan (fun n => toString n) "P" "F" "now"
        (generateMarkdownForPlan "1/1/2024"
          ⟨"p1", "My Plan", "d",
            [⟨"b1", "done text", true, false⟩,
             ⟨"b2", "hello", false, false⟩]⟩) "f.md").title = "My Plan" ∧
    (parseMarkdownToPlan (fun n => toString n) "P" "F" "now"
        (generateMarkdownForPlan "1/1/2024"
          ⟨"p1", "My Plan", "d",
            [⟨"b1", "done text", true, false⟩,
             ⟨"b2", "hello", false, false⟩]⟩) "f.md").blocks.length = 2 ∧
    (parseMarkdownToPlan (fun n => toString n) "P" "F" "now"
        (generateMarkdownForPlan "1/1/2024"
          ⟨"p1", "My Plan", "d",
            [⟨"b1", "done text", true, false⟩,
             ⟨"b2", "hello", false, false⟩]⟩) "f.md").blocks.map
        (fun b => b.done) = [true, false] ∧
    (parseMarkdownToPlan (fun n => toString n) "P" "F" "now"
        (generateMarkdownForPlan "1/1/2024"
          ⟨"p1", "My Plan", "d",
            [⟨"b1", "done text", true, false⟩,
             ⟨"b2", "hello", false, false⟩]⟩) "f.md").blocks.map
        (fun b => b.content) = ["done text", "hello"] := by
  exact roundtrip_title_done_content (fun n => toString n) "P" "F" "now"
    "f.md" "1/1/2024"
    ⟨"p1", "My Plan", "d",
      [⟨"b1", "done text", true, false⟩, ⟨"b2", "hello", false, false⟩]⟩
    (by decide) (by decide) (by decide) (by decide) (by decide) (by decide)
